import Mathlib

/-!
# Verification of the vroomrs call-tree engine

A shallow embedding, in Lean 4, of the call-tree construction engine of the
`vroomrs` profiling service and of its consumers:

* frame classification (`src/frame/mod.rs`): `trim_package`, the per-platform
  application/system rules, `set_in_app`, `normalize`;
* call-tree nodes (`src/nodetree.rs`): `Node::from_frame`, `Node::update`,
  `Node::set_duration`;
* the sample-variant builder (`src/sample/v2.rs`): `SampleChunk::call_trees`;
* the wall-clock monotonicity repair (`src/android/mod.rs`):
  `Android::fix_samples_time` and `get_adjusted_time`;
* the frozen-frame occurrence detector (`src/occurrence/frame_drop.rs`):
  `FrozenFrameStats::is_node_stack_valid`, `find_frame_drop_cause_frame`
  and the per-measurement root scan of `find_frame_drop_cause`.

Machine integers (`u64`) are modelled as `Nat` with explicit wrap-around
(`% 2^64`) at the operations where Rust release builds wrap (addition,
subtraction, multiplication).  Strings are hashed through their character
codes, which coincides with the UTF-8 byte sequence for the ASCII data this
program handles.  `f64` sample timestamps are modelled as exact rationals;
the conversion `(t * 1e9) as u64` is modelled as `⌊t * 1e9⌋` saturated into
the `u64` range, which agrees with the floating-point pipeline on the
timestamp values appearing in the claims and in the repository's fixtures.
-/

namespace Vroomrs

/-! ## u64 arithmetic -/

/-- `2^64`, the modulus of Rust's `u64` arithmetic. -/
def U64MOD : Nat := 18446744073709551616

theorem U64MOD_eq : U64MOD = 2 ^ 64 := by decide

/-- Rust `u64` wrapping subtraction `a - b` (release-build semantics). -/
def sub64 (a b : Nat) : Nat := (a + U64MOD - b) % U64MOD

theorem sub64_of_le (a b : Nat) (h : b ≤ a) (ha : a < U64MOD) : sub64 a b = a - b := by
  unfold sub64
  have h1 : a + U64MOD - b = (a - b) + U64MOD := by omega
  rw [h1, Nat.add_mod_right]
  exact Nat.mod_eq_of_lt (by omega)

/-! ## FNV-1a 64-bit hash (the `fnv_rs::Fnv64` hasher used by the builder) -/

/-- FNV-1a 64-bit offset basis, the state of a fresh `Fnv64::default()`. -/
def FNV_OFFSET : Nat := 0xcbf29ce484222325

/-- FNV-1a 64-bit prime. -/
def FNV_PRIME : Nat := 0x100000001b3

/-- One FNV-1a step: xor the byte in, multiply by the prime (mod `2^64`). -/
def fnv1aByte (h b : Nat) : Nat := ((h ^^^ b) * FNV_PRIME) % U64MOD

/-- Feed a byte sequence to the FNV-1a hasher state `h` (`Hasher::write`). -/
def fnv1aBytes (h : Nat) (bs : List Nat) : Nat := bs.foldl fnv1aByte h

/-- Bytes of a string, via character codes (equal to UTF-8 for ASCII data). -/
def strBytes (s : String) : List Nat := s.data.map Char.toNat

/-! ## Strings: helpers mirroring the Rust `str` operations and the
regular expressions of `src/frame/mod.rs` -/

/-- `p` is a prefix of `s` (Rust `str::starts_with`). -/
def charsIsPrefix : List Char → List Char → Bool
  | [], _ => true
  | _ :: _, [] => false
  | a :: ps, b :: ss => a == b && charsIsPrefix ps ss

/-- `sub` occurs somewhere in `s` (Rust `str::contains`). -/
def charsContainsSub (s sub : List Char) : Bool :=
  match s with
  | [] => charsIsPrefix sub []
  | _ :: rest => charsIsPrefix sub s || charsContainsSub rest sub

/-- Rust `str::contains` on strings. -/
def strContainsSub (s sub : String) : Bool := charsContainsSub s.data sub.data

/-- Rust `str::starts_with` on strings. -/
def strStartsWith (s p : String) : Bool := charsIsPrefix p.data s.data

/-- Rust `str::ends_with` on strings. -/
def strEndsWith (s p : String) : Bool := charsIsPrefix p.data.reverse s.data.reverse

/-- Drop the last `n` characters of a string. -/
def strDropRight (s : String) (n : Nat) : String := ⟨s.data.take (s.data.length - n)⟩

/-- Split a character list at every occurrence of `sep`; `n` separators give
`n+1` pieces, empty pieces included (Rust `str::split(char)` semantics). -/
def splitChar (sep : Char) : List Char → List (List Char)
  | [] => [[]]
  | c :: rest =>
    let tail := splitChar sep rest
    if c == sep then [] :: tail
    else
      match tail with
      | [] => [[c]]
      | piece :: more => (c :: piece) :: more

/-- Split a string on a separator character, Rust `str::split` semantics. -/
def strSplitChar (sep : Char) (s : String) : List String :=
  (splitChar sep s.data).map fun cs => ⟨cs⟩

/-- `WINDOWS_PATH_REGEX`: case-insensitive `^([a-z]:\\|\\\\)`. -/
def isWindowsPathPrefix (s : String) : Bool :=
  match s.data with
  | c1 :: c2 :: rest =>
    (c1 == '\\' && c2 == '\\') ||
      (c1.isAlpha && c2 == ':' &&
        (match rest with
          | c3 :: _ => c3 == '\\'
          | [] => false))
  | _ => false

/-- `PACKAGE_EXTENSION_REGEX.replace_all(filename, "")`: the regex
`\.(dylib|so|a|dll|exe)$` is end-anchored, so it strips the final matching
binary-file extension (at most one match is possible). -/
def stripPackageExtension (s : String) : String :=
  if strEndsWith s ".dylib" then strDropRight s 6
  else if strEndsWith s ".so" then strDropRight s 3
  else if strEndsWith s ".a" then strDropRight s 2
  else if strEndsWith s ".dll" then strDropRight s 4
  else if strEndsWith s ".exe" then strDropRight s 4
  else s

/-! ## Platform (`src/platform/mod.rs`) -/

inductive Platform where
  | Android
  | Cocoa
  | Java
  | JavaScript
  | Node
  | Php
  | Python
  | Rust
deriving DecidableEq

/-! ## Frame (`src/frame/mod.rs`) -/

/-- `frame::Data`. -/
structure Data where
  deobfuscation_status : Option String := none
  symbolicator_status : Option String := none
  js_symbolicated : Option Bool := none
deriving DecidableEq

/-- `frame::Frame`. -/
structure Frame where
  column : Option Nat := none
  data : Option Data := none
  file : Option String := none
  function : Option String := none
  in_app : Option Bool := none
  instruction_addr : Option String := none
  lang : Option String := none
  line : Option Nat := none
  module : Option String := none
  package : Option String := none
  path : Option String := none
  status : Option String := none
  sym_addr : Option String := none
  symbol : Option String := none
  platform : Option Platform := none
deriving DecidableEq

/-- `trim_package` of `src/frame/mod.rs`. -/
def trim_package (pkg : String) : String :=
  let separator : Char := if isWindowsPathPrefix pkg then '\\' else '/'
  let pieces : List String := strSplitChar separator pkg
  let filename := match pieces.getLast? with
    | some l => l
    | none => pkg
  let filename :=
    if pieces.length ≥ 2 ∧ filename = "" then pieces.getD (pieces.length - 2) ""
    else filename
  let filename := if filename = "" then pkg else filename
  stripPackageExtension filename

/-- Helper of `Frame::module_or_package`: the package branch. -/
def trimmedPackageOrEmpty (f : Frame) : String :=
  match f.package with
  | some p => if p = "" then "" else trim_package p
  | none => ""

/-- `Frame::module_or_package`. -/
def Frame.module_or_package (f : Frame) : String :=
  match f.module with
  | some m => if m = "" then trimmedPackageOrEmpty f else m
  | none => trimmedPackageOrEmpty f

/-- `Frame::is_main` (cocoa only): returns whether the frame is the process
entry point, and the caller-keeping offset. -/
def Frame.is_main (f : Frame) : Bool × Int :=
  if f.status ≠ some "symbolicated" then (false, 0)
  else
    match f.function with
    | some "main" => (true, 0)
    | some "UIApplicationMain" => (true, -1)
    | _ => (false, 0)

/-- `Frame::is_node_application_frame`. -/
def Frame.is_node_application_frame (f : Frame) : Bool :=
  match f.path with
  | none => true
  | some path => !(strStartsWith path "node:") && !(strContainsSub path "node_modules")

/-- `JS_SYSTEM_PACKAGE_REGEX`: `node_modules|^(@moz-extension|chrome-extension)`. -/
def jsSystemPackageMatch (path : String) : Bool :=
  strContainsSub path "node_modules" || strStartsWith path "@moz-extension" ||
    strStartsWith path "chrome-extension"

/-- `Frame::is_javascript_application_frame`. -/
def Frame.is_javascript_application_frame (f : Frame) : Bool :=
  let fnSynthetic := match f.function with
    | some fn => strStartsWith fn "["
    | none => false
  if fnSynthetic then false
  else
    match f.path with
    | none => true
    | some path => path = "" || !(jsSystemPackageMatch path)

/-- `packageutil::is_cocoa_application_package` (`src/packageutil/mod.rs`). -/
def is_cocoa_application_package (p : String) : Bool :=
  strStartsWith p "/private/var/containers" || strStartsWith p "/var/containers" ||
    strContainsSub p "/Developer/Xcode/DerivedData" ||
    strContainsSub p "/data/Containers/Bundle/Application"

/-- `Frame::is_cocoa_application_frame`.  `COCOA_SYSTEM_PACKAGE` is the fixed
set `{"Sentry", "hermes"}`. -/
def Frame.is_cocoa_application_frame (f : Frame) : Bool :=
  if (f.is_main).1 then false
  else if f.module_or_package = "Sentry" ∨ f.module_or_package = "hermes" then false
  else
    match f.package with
    | none => false
    | some p => is_cocoa_application_package p

/-- `Frame::is_rust_application_frame`. -/
def Frame.is_rust_application_frame (f : Frame) : Bool :=
  match f.package with
  | none => false
  | some p =>
    !(strContainsSub p "/library/std/src/") && !(strStartsWith p "/usr/lib/system/") &&
      !(strStartsWith p "/rustc/") && !(strStartsWith p "/usr/local/rustup/") &&
      !(strStartsWith p "/usr/local/cargo/")

/-- Modelled from the spec: the fixed Python standard-library module set of
`src/frame/python_std_lib.rs`, a file not present under `src/`; the spec
says the frame's top-level dotted module prefix is checked against "a fixed
standard-library module set".  Represented here by a fixed set containing
the module exercised by the repository's tests. -/
def PYTHON_STDLIB : List String :=
  ["abc", "asyncio", "collections", "concurrent", "dataclasses", "datetime",
   "functools", "itertools", "json", "logging", "math", "multiprocessing",
   "os", "queue", "random", "re", "socket", "sys", "threading", "time",
   "typing", "urllib", "uuid"]

/-- `Frame::is_python_application_frame`. -/
def Frame.is_python_application_frame (f : Frame) : Bool :=
  let pathSystem := match f.path with
    | some path =>
      strContainsSub path "/site-packages/" || strContainsSub path "/dist-packages/" ||
        strContainsSub path "\\site-packages\\" || strContainsSub path "\\dist-packages\\" ||
        strStartsWith path "/usr/local/"
    | none => false
  if pathSystem then false
  else
    match f.module with
    | some m =>
      -- `module.split('.').next()` is always `Some`: the first dotted piece.
      let topLevel : String := (strSplitChar '.' m).getD 0 ""
      if topLevel = "sentry_sdk" then false
      else !(PYTHON_STDLIB.contains topLevel)
    | none => true

/-- `Frame::is_php_application_frame`. -/
def Frame.is_php_application_frame (f : Frame) : Bool :=
  match f.path with
  | none => true
  | some p => !(strContainsSub p "/vendor/")

/-- The per-platform dispatch of `Frame::set_in_app` (`match self.platform.unwrap()`). -/
def platformRuleApp (f : Frame) : Platform → Bool
  | .Node => f.is_node_application_frame
  | .JavaScript => f.is_javascript_application_frame
  | .Cocoa => f.is_cocoa_application_frame
  | .Rust => f.is_rust_application_frame
  | .Python => f.is_python_application_frame
  | .Php => f.is_php_application_frame
  | _ => false

/-- `Frame::set_in_app`.  The Rust code calls `self.platform.unwrap()`; it is
only invoked through `normalize`, which sets the platform first, so the
platform is always present there (`getD` supplies an arbitrary default for
the otherwise-panicking case). -/
def Frame.set_in_app (f : Frame) (p : Platform) : Frame :=
  let declaredAndSamePlatform := f.in_app.isSome &&
    (match f.platform with
      | some fp => p = fp
      | none => false)
  if declaredAndSamePlatform then f
  else { f with in_app := some (platformRuleApp f (f.platform.getD Platform.Android)) }

/-- `Frame::set_platform`. -/
def Frame.set_platform (f : Frame) (p : Platform) : Frame :=
  match f.platform with
  | none => { f with platform := some p }
  | some _ => f

/-- `Frame::set_status`. -/
def Frame.set_status (f : Frame) : Frame :=
  match f.data with
  | some d =>
    match d.symbolicator_status with
    | some s => if s ≠ "" then { f with status := some s } else f
    | none => f
  | none => f

/-- `Frame::normalize`: status, then platform, then in-app. -/
def Frame.normalize (f : Frame) (p : Platform) : Frame :=
  ((f.set_status).set_platform p).set_in_app p

/-! ## Node (`src/nodetree.rs`)

The Rust `Node` is a recursive struct (`children: Vec<Node>`); it is
embedded as a nested inductive: the scalar fields form `NodeData`, and a
`Node` is a `NodeData` together with its child list. -/

/-- The scalar fields of `nodetree::Node`. -/
structure NodeData where
  duration_ns : Nat := 0
  fingerprint : Nat := 0
  is_application : Bool := false
  line : Option Nat := none
  name : String := ""
  package : String := ""
  path : Option String := none
  end_ns : Nat := 0
  frame : Frame := {}
  sample_count : Nat := 0
  start_ns : Nat := 0
deriving DecidableEq

/-- `nodetree::Node`: scalar fields plus the ordered child list. -/
inductive Node where
  | mk (data : NodeData) (children : List Node)

/-- The scalar fields of a node. -/
def Node.data : Node → NodeData
  | .mk d _ => d

/-- The ordered children of a node (insertion order = first-seen order). -/
def Node.children : Node → List Node
  | .mk _ c => c

/-- `Node::set_duration`: store the new end and re-derive the duration
(`u64` subtraction, wrapping in release builds). -/
def NodeData.set_duration (d : NodeData) (t : Nat) : NodeData :=
  { d with end_ns := t, duration_ns := sub64 t d.start_ns }

/-- `Node::update`: one more sample observed; extend the node to `t`.
(`sample_count` is a `u64`; its increment cannot reach the wrap-around on
any input the builder can process, so it is kept as a plain successor.) -/
def NodeData.update (d : NodeData) (t : Nat) : NodeData :=
  ({ d with sample_count := d.sample_count + 1 }).set_duration t

/-- `Node::from_frame`. -/
def Node.from_frame (f : Frame) (start stop fingerprint : Nat) : Node :=
  let is_application := f.in_app.getD true
  let base : NodeData := {
    duration_ns := 0
    end_ns := stop
    fingerprint := fingerprint
    frame := f
    is_application := is_application
    line := f.line
    name := f.function.getD ""
    package := f.module_or_package
    path := f.path
    sample_count := 1
    start_ns := start }
  let base := if stop > 0 then { base with duration_ns := sub64 stop base.start_ns } else base
  Node.mk base []

/-- `Node::to_frame`: snapshot the frame, copying the node status into the
symbolicator status when frame data is present. -/
def Node.to_frame (n : Node) : Frame :=
  match n.data.frame.data with
  | some d => { n.data.frame with data := some { d with symbolicator_status := n.data.frame.status } }
  | none => n.data.frame

/-! ## Sample format v2 (`src/sample/v2.rs`) -/

/-- `SampleError` (declared in `src/sample/mod.rs`, a file not under `src/`;
the two variants are the ones constructed by `SampleChunk::call_trees`). -/
inductive SampleError where
  | InvalidStackId
  | InvalidFrameId
deriving DecidableEq

/-- `sample::v2::Sample`.  `timestamp` is an `f64` in seconds, modelled as an
exact rational. -/
structure Sample where
  stack_id : Int
  thread_id : String
  timestamp : ℚ
deriving DecidableEq

/-- `sample::v2::SampleData` (the `thread_metadata` field plays no part in
tree construction and is omitted). -/
structure SampleData where
  frames : List Frame := []
  samples : List Sample := []
  «stacks» : List (List Int) := []

/-- `sample::v2::SampleChunk`, restricted to the single field
`SampleChunk::call_trees` reads (`self.profile`); the metadata fields do not
participate in tree construction. -/
structure SampleChunk where
  profile : SampleData := {}

/-- Rust `i32 as usize`: sign-extend to 64 bits and reinterpret. -/
def i32AsUsize (i : Int) : Nat := (i % (18446744073709551616 : Int)).toNat

/-- Rust `(t * 1e9) as u64` on an `f64` seconds timestamp: multiply by `1e9`
and truncate/saturate into the `u64` range.  On the exact rational model the
cast is `⌊t * 1e9⌋` clamped to `[0, 2^64)` (for the negative values that the
cast saturates to `0`, truncation and floor agree after the clamp); this
agrees with the `f64` pipeline on the timestamps of the claims and of the
repository fixtures. -/
def timestampToNs (q : ℚ) : Nat :=
  min (q.num * 1000000000 / (q.den : Int)).toNat (U64MOD - 1)

/-- Modelled from the spec: `Frame::write_to_hash`, called by
`SampleChunk::call_trees`, is declared in a part of `src/frame/mod.rs` not
present under `src/` (only `Node::write_to_hash` is).  The spec says the
fingerprint is a 64-bit hash of the frame's (trimmed package, function name)
pair, with a sentinel for missing parts.  It is modelled as writing the
module-or-trimmed-package (or `"-"` when empty) followed by the function
name (or `"-"` when empty); this reproduces the four fingerprint constants
asserted by `tests::test_call_trees` in `src/sample/v2.rs`. -/
def frameHashBytes (f : Frame) : List Nat :=
  let pkg := f.module_or_package
  let fn := f.function.getD ""
  strBytes (if pkg = "" then "-" else pkg) ++ strBytes (if fn = "" then "-" else fn)

/-- Feed one frame to the hasher state (the `frame.write_to_hash(&mut hasher)`
step of `SampleChunk::call_trees`). -/
def frameHashStep (h : Nat) (f : Frame) : Nat := fnv1aBytes h (frameHashBytes f)

/-- The per-sample insertion walk of `SampleChunk::call_trees`: process the
resolved stack root-to-leaf against the current position (`nodes` is the
root list at the top call, a node's child list below).  At each depth the
running hasher state `h` is advanced by the frame and `hasher.finish()` (the
current state) is the fingerprint; if the last node at this position has the
same fingerprint and ends exactly at this sample's timestamp it is extended
via `update` and descended into, otherwise a fresh `Node::from_frame` is
appended and descended into. -/
def insertStack (stack : List Frame) (ts nextTs : Nat) (h : Nat) (nodes : List Node) : List Node :=
  match stack with
  | [] => nodes
  | f :: rest =>
    let h2 := frameHashStep h f
    let fingerprint := h2
    let newNode : Node :=
      match Node.from_frame f ts nextTs fingerprint with
      | .mk d _ => Node.mk d (insertStack rest ts nextTs h2 [])
    match nodes.getLast? with
    | some last =>
      if last.data.fingerprint = fingerprint ∧ last.data.end_ns = ts then
        nodes.dropLast ++ [Node.mk (last.data.update nextTs) (insertStack rest ts nextTs h2 last.children)]
      else nodes ++ [newNode]
    | none => nodes ++ [newNode]

/-- One thread's sample loop of `SampleChunk::call_trees`
(`for sample_index in 0..samples.len() - 1`): the last sample is a
timestamp-only sentinel; each earlier sample is validated (stack id against
the stack table, every frame id of the stack against the frame table) and
then folded into the trees through `insertStack` with a fresh hasher. -/
def processThreadSamples (frames : List Frame) («stacks» : List (List Int)) :
    List Sample → List Node → Except SampleError (List Node)
  | [], trees => .ok trees
  | [_], trees => .ok trees
  | s :: s2 :: rest, trees =>
    if «stacks».length ≤ i32AsUsize s.stack_id then .error .InvalidStackId
    else
      let stack := «stacks».getD (i32AsUsize s.stack_id) []
      if stack.any (fun fid => frames.length ≤ i32AsUsize fid) then .error .InvalidFrameId
      else
        let nextTs := timestampToNs s2.timestamp
        let ts := timestampToNs s.timestamp
        let resolved := stack.reverse.map (fun fid => frames.getD (i32AsUsize fid) {})
        processThreadSamples frames «stacks» (s2 :: rest) (insertStack resolved ts nextTs FNV_OFFSET trees)

/-- Insert a sample after every sample with a strictly smaller timestamp and
before the rest, preserving the relative order of equal timestamps. -/
def insertSampleSorted (s : Sample) : List Sample → List Sample
  | [] => [s]
  | b :: rest =>
    if b.timestamp.blt s.timestamp then b :: insertSampleSorted s rest else s :: b :: rest

/-- Stable sort of the samples by timestamp, modelling the Rust stable
`sort_by(|a, b| a.timestamp.partial_cmp(&b.timestamp).unwrap())`: a stable
sort under a total preorder is unique, so any stable formulation produces
the same sequence the Rust sort does. -/
def sortSamples : List Sample → List Sample
  | [] => []
  | s :: rest => insertSampleSorted s (sortSamples rest)

/-- Thread ids in order of first appearance among the sorted samples.  The
Rust code groups samples in a `HashMap` whose iteration order is
unspecified; the per-thread results are independent of one another, and the
association list produced here lists threads in first-appearance order. -/
def threadIds (samples : List Sample) : List String :=
  samples.foldl (fun acc s => if acc.contains s.thread_id then acc else acc ++ [s.thread_id]) []

/-- `SampleChunk::call_trees`.  A thread appears in the result exactly when
at least one of its processed samples contributed a root node (the Rust code
creates the map entry at the first root-level insertion). -/
def SampleChunk.call_trees (chunk : SampleChunk) (active_thread_id : Option String) :
    Except SampleError (List (String × List Node)) :=
  let sorted := sortSamples chunk.profile.samples
  (threadIds sorted).foldlM
    (fun acc tid =>
      if (match active_thread_id with
          | some active => tid != active
          | none => false) then
        pure acc
      else do
        let trees ← processThreadSamples chunk.profile.frames chunk.profile.«stacks»
          (sorted.filter (fun s => s.thread_id = tid)) []
        pure (if trees.isEmpty then acc else acc ++ [(tid, trees)]))
    []

/-! ## Android event format (`src/android/mod.rs`)

Only the pieces `Android::fix_samples_time` touches are embedded: the clock
kind, the event list, and each event's nested wall-clock duration.  The
`methods` and `threads` tables play no part in the repair pass. -/

/-- `android::Duration`. -/
structure Duration where
  secs : Option Nat := none
  nanos : Option Nat := none
deriving DecidableEq

/-- `android::EventMonotonic`. -/
structure EventMonotonic where
  wall : Option Duration := none
  cpu : Option Duration := none
deriving DecidableEq

/-- `android::EventTime`. -/
structure EventTime where
  global : Option Duration := none
  monotonic : Option EventMonotonic := none
deriving DecidableEq

/-- `android::Clock`. -/
inductive Clock where
  | Global
  | Cpu
  | Wall
  | Dual
  | None
deriving DecidableEq

/-- `android::AndroidEvent` (the `action` string plays no role in the repair
pass and is carried opaquely). -/
structure AndroidEvent where
  action : Option String := none
  thread_id : Nat := 0
  method_id : Nat := 0
  time : EventTime := {}
deriving DecidableEq

/-- `android::Android`, restricted to the fields `fix_samples_time` reads. -/
structure Android where
  clock : Clock := .None
  events : List AndroidEvent := []
  start_time : Nat := 0
deriving DecidableEq

/-- The wall-clock value of an event in nanoseconds: present exactly when
both `secs` and `nanos` are, computed as `secs * 1_000_000_000 + nanos` in
`u64` arithmetic. -/
def AndroidEvent.wallNs (e : AndroidEvent) : Option Nat :=
  match e.time.monotonic with
  | none => none
  | some m =>
    match m.wall with
    | none => none
    | some w =>
      match w.secs, w.nanos with
      | some s, some n => some ((s * 1000000000 + n) % U64MOD)
      | _, _ => none

/-- The write-back of an adjusted time:
`wall.secs = new_time / 1e9; wall.nanos = new_time % 1e9` (performed inside
the same `if let` that read the wall duration). -/
def AndroidEvent.setWallNs (e : AndroidEvent) (t : Nat) : AndroidEvent :=
  match e.time.monotonic with
  | none => e
  | some m =>
    match m.wall with
    | none => e
    | some w =>
      let w2 : Duration := { w with secs := some (t / 1000000000), nanos := some (t % 1000000000) }
      { e with time := { e.time with monotonic := some { m with wall := some w2 } } }

/-- Update a per-thread tracker map (Rust `HashMap<u64, u64>` insert). -/
def tmUpd (m : Nat → Option Nat) (k v : Nat) : Nat → Option Nat :=
  fun t => if t = k then some v else m t

/-- `get_adjusted_time` of `src/android/mod.rs` (`u64` arithmetic:
additions and the inner subtraction wrap in release builds). -/
def get_adjusted_time (max_time_ns latest_ns current_ns : Nat) : Nat :=
  if current_ns < max_time_ns ∧ current_ns < latest_ns then
    (max_time_ns + 1000000000) % U64MOD
  else
    (max_time_ns + sub64 current_ns latest_ns) % U64MOD

/-- The first scan of `Android::fix_samples_time`: walk the events in order,
tracking per thread the latest and the maximum wall time; stop at the first
index whose wall time is behind its thread's latest (without folding that
event into the trackers), returning the regression index (if any) together
with the tracker states at that point. -/
def scanRegression :
    List AndroidEvent → (Nat → Option Nat) → (Nat → Option Nat) → Nat →
      Option Nat × (Nat → Option Nat) × (Nat → Option Nat)
  | [], latest, maxm, _ => (none, latest, maxm)
  | e :: rest, latest, maxm, i =>
    match e.wallNs with
    | none => scanRegression rest latest maxm (i + 1)
    | some current =>
      match latest e.thread_id with
      | some l =>
        if current < l then (some i, latest, maxm)
        else
          scanRegression rest (tmUpd latest e.thread_id current)
            (tmUpd maxm e.thread_id (max ((maxm e.thread_id).getD 0) current)) (i + 1)
      | none =>
        scanRegression rest (tmUpd latest e.thread_id current)
          (tmUpd maxm e.thread_id (max ((maxm e.thread_id).getD 0) current)) (i + 1)

/-- The second loop of `Android::fix_samples_time`
(`for i in regression_idx..self.events.len()`): every event with a wall time
is rewritten to `get_adjusted_time(max, latest, current)`; the max tracker
is then raised to the adjusted time and the latest tracker is set to the
raw `current` value. -/
def adjustEvents :
    List AndroidEvent → (Nat → Option Nat) → (Nat → Option Nat) → List AndroidEvent
  | [], _, _ => []
  | e :: rest, latest, maxm =>
    match e.wallNs with
    | none => e :: adjustEvents rest latest maxm
    | some current =>
      let tid := e.thread_id
      let max_time := (maxm tid).getD 0
      let latest_time := (latest tid).getD 0
      let new_time := get_adjusted_time max_time latest_time current
      e.setWallNs new_time ::
        adjustEvents rest (tmUpd latest tid current)
          (tmUpd maxm tid (max ((maxm tid).getD 0) new_time))

/-- `Android::fix_samples_time`: skipped for `Global`/`Cpu` clocks; otherwise
scan for the first wall-clock regression and, from that index to the end of
the stream, rewrite every wall time through `get_adjusted_time`. -/
def Android.fix_samples_time (a : Android) : Android :=
  match a.clock with
  | .Global | .Cpu => a
  | _ =>
    match scanRegression a.events (fun _ => none) (fun _ => none) 0 with
    | (none, _, _) => a
    | (some ridx, latest, maxm) =>
      { a with events := a.events.take ridx ++ adjustEvents (a.events.drop ridx) latest maxm }

/-- The stream-ordered wall-time values of one thread's events (events
without a wall time carry no wall-clock value). -/
def wallsOf (tid : Nat) (events : List AndroidEvent) : List Nat :=
  events.filterMap fun e => if e.thread_id = tid then e.wallNs else none

/-! ## Frozen-frame occurrence detection (`src/occurrence/frame_drop.rs`) -/

/-- `frame_drop::FrozenFrameStats`: the search window derived from one
measurement value.  (`FrozenFrameStats::new` derives these five fields from
`(elapsed_since_start_ns, value)` through `f64` margin arithmetic; the
detector itself, which the claims are about, consumes the fields.) -/
structure FrozenFrameStats where
  duration_ns : Nat := 0
  end_ns : Nat := 0
  min_duration_ns : Nat := 0
  start_limit_ns : Nat := 0
  start_ns : Nat := 0
deriving DecidableEq

/-- `frame_drop::NodeStack`: a candidate node with its depth and (once
selected) the root-to-node stack trace. -/
structure NodeStack where
  depth : Int
  n : Node
  st : List Node

/-- `FrozenFrameStats::is_node_stack_valid`. -/
def FrozenFrameStats.is_node_stack_valid (stats : FrozenFrameStats) (ns : NodeStack) : Bool :=
  let has_function := match ns.n.data.frame.function with
    | some f => f ≠ ""
    | none => false
  has_function && ns.n.data.is_application &&
    decide (stats.start_ns ≤ ns.n.data.start_ns) &&
    decide (ns.n.data.end_ns ≤ stats.end_ns) &&
    decide (stats.min_duration_ns ≤ ns.n.data.duration_ns) &&
    decide (ns.n.data.start_ns ≤ stats.start_limit_ns)

/-- The `longest`-replacement rule of the child loop in
`find_frame_drop_cause_frame`: a child's cause supersedes the current best
when it is strictly longer, or equally long and strictly deeper. -/
def betterCause (cause lref : NodeStack) : Bool :=
  cause.n.data.duration_ns > lref.n.data.duration_ns ||
    (cause.n.data.duration_ns = lref.n.data.duration_ns ∧ cause.depth > lref.depth)

mutual

/-- `FrozenFrameStats::find_frame_drop_cause_frame`: post-order search for
the valid node of largest duration (deeper wins ties among children; a
strictly longer current node beats an equal-or-longer descendant never —
the descendant is preferred on equality).  `st` is the path of ancestors;
the current node is pushed before descending, and a freshly chosen current
node captures the full path as its stack trace. -/
def find_frame_drop_cause_frame (stats : FrozenFrameStats) :
    Node → List Node → Int → Option NodeStack
  | .mk d cs, st, depth =>
    let n := Node.mk d cs
    let stPushed := st ++ [n]
    let longest := findCauseChildren stats cs stPushed (depth + 1) none
    let ns : NodeStack := { depth := depth, n := n, st := [] }
    let current := if stats.is_node_stack_valid ns then some ns else none
    match longest, current with
    | none, none => none
    | none, some c => some { c with st := stPushed }
    | some l, none => some l
    | some l, some c =>
      if c.n.data.duration_ns ≤ l.n.data.duration_ns then some l
      else some { c with st := stPushed }
termination_by n => sizeOf n
decreasing_by simp_wf

/-- The child loop of `find_frame_drop_cause_frame`, carrying the running
`longest` candidate. -/
def findCauseChildren (stats : FrozenFrameStats) :
    List Node → List Node → Int → Option NodeStack → Option NodeStack
  | [], _, _, longest => longest
  | c :: rest, st, depth, longest =>
    let longest2 := match find_frame_drop_cause_frame stats c st depth with
      | none => longest
      | some cause =>
        match longest with
        | none => some cause
        | some lref => if betterCause cause lref then some cause else longest
    findCauseChildren stats rest st depth longest2
termination_by cs => sizeOf cs
decreasing_by all_goals simp_wf <;> omega

end

/-- The number of stack-trace nodes with a missing or empty function name
(the `unknown_frames_count` loop of `find_frame_drop_cause`). -/
def unknownFramesCount (st : List Node) : Nat :=
  st.countP fun node =>
    match node.data.frame.function with
    | none => true
    | some f => f = ""

/-- `occurrence::NodeInfo` as produced for the `frame_drop` category. -/
structure NodeInfo where
  category : String
  node : Node
  stack_trace : List Frame

/-- The per-measurement root scan of `find_frame_drop_cause`: roots are
visited in order; a root without a cause, or whose cause is discarded by the
unknown-frames filter, falls through to the next root (`continue` targets
the root loop); the first surviving cause is emitted and ends the scan for
this measurement (`break`).  The threshold test
`unknown_frames_count >= stack_trace.len() * 0.8` is computed on `f64`
values in Rust; both sides are exactly representable integers scaled by
`0.8` over the stack depths this program produces, modelled exactly as the
rational comparison `5 * count ≥ 4 * len`. -/
def frameDropScanRoots (stats : FrozenFrameStats) : List Node → Option NodeInfo
  | [] => none
  | root :: rest =>
    match find_frame_drop_cause_frame stats root [] 0 with
    | none => frameDropScanRoots stats rest
    | some cause =>
      let stack_trace := cause.st.map Node.to_frame
      let cnt := unknownFramesCount cause.st
      if 5 * cnt ≥ 4 * stack_trace.length then frameDropScanRoots stats rest
      else some { category := "frame_drop", node := cause.n, stack_trace := stack_trace }

/-- The measurement loop of `find_frame_drop_cause`: one optional occurrence
per measurement value, in measurement order (the window statistics of each
measurement value are taken as given, see `FrozenFrameStats`). -/
def find_frame_drop_cause (measurementStats : List FrozenFrameStats)
    (call_trees : List Node) : List NodeInfo :=
  measurementStats.foldl
    (fun occurrences stats =>
      match frameDropScanRoots stats call_trees with
      | some info => occurrences ++ [info]
      | none => occurrences)
    []

/-! ## C1 — the contiguity merge rule of the sample builder -/

/-- Apply `update t` to the last node at each of the first `d` depths along
the last-child path: one more sample counted and the end pushed to `t` at
every touched depth, everything else untouched. -/
def touchPath : Nat → Nat → List Node → List Node
  | 0, _, nodes => nodes
  | d + 1, t, nodes =>
    match nodes.getLast? with
    | none => nodes
    | some last =>
      nodes.dropLast ++ [Node.mk (last.data.update t) (touchPath d t last.children)]

/-- `from_frame` stores the fingerprint verbatim. -/
theorem from_frame_fingerprint (f : Frame) (a b fp : Nat) :
    (Node.from_frame f a b fp).data.fingerprint = fp := by
  unfold Node.from_frame
  by_cases h : b > 0 <;> simp [h, Node.data]

/-- `from_frame` stores the end timestamp verbatim. -/
theorem from_frame_end_ns (f : Frame) (a b fp : Nat) :
    (Node.from_frame f a b fp).data.end_ns = b := by
  unfold Node.from_frame
  by_cases h : b > 0 <;> simp [h, Node.data]

/-- Whatever happens at one depth of the per-sample walk, the node at the
current position's last slot afterwards carries this depth's fingerprint,
ends at `nextTs`, and its children are the walk of the rest of the stack
over some child list. -/
theorem insertStack_cons_shape (f : Frame) (rest : List Frame) (ts nextTs h : Nat)
    (trees : List Node) :
    ∃ (P CH0 : List Node) (D : NodeData),
      insertStack (f :: rest) ts nextTs h trees =
        P ++ [Node.mk D (insertStack rest ts nextTs (frameHashStep h f) CH0)] ∧
      D.fingerprint = frameHashStep h f ∧ D.end_ns = nextTs := by
  cases hff : Node.from_frame f ts nextTs (frameHashStep h f) with
  | mk nd nch =>
    have hndfp : nd.fingerprint = frameHashStep h f := by
      have hx := from_frame_fingerprint f ts nextTs (frameHashStep h f)
      rw [hff] at hx
      exact hx
    have hndend : nd.end_ns = nextTs := by
      have hx := from_frame_end_ns f ts nextTs (frameHashStep h f)
      rw [hff] at hx
      exact hx
    cases hlast : trees.getLast? with
    | none =>
      refine ⟨trees, [], nd, ?_, hndfp, hndend⟩
      simp only [insertStack, hlast, hff]
    | some last =>
      by_cases hcond : last.data.fingerprint = frameHashStep h f ∧ last.data.end_ns = ts
      · refine ⟨trees.dropLast, last.children, last.data.update nextTs, ?_, ?_, ?_⟩
        · simp only [insertStack, hlast, hff]
          rw [if_pos hcond]
        · simp [NodeData.update, NodeData.set_duration, hcond.1]
        · simp [NodeData.update, NodeData.set_duration]
      · refine ⟨trees, [], nd, ?_, hndfp, hndend⟩
        simp only [insertStack, hlast, hff]
        rw [if_neg hcond]

/-- C1: (merge) re-inserting the *same* resolved stack for the next sample
`(s1, s2)` right after it was inserted for `(s0, s1)` merges at every
depth: the walk equals a pure `touchPath` pass applying `update s2`
(`sample_count + 1`, `end_ns` advanced to the next timestamp) to the
last-inserted node of each of the stack's depths, creating no node — the
contiguity condition holds automatically because the first insertion left
every touched node ending at `s1`, the second sample's start.  (no merge)
If the last node at the current position does not end at this sample's
start (non-contiguous, even with an identical fingerprint), the walk
leaves the existing nodes untouched and appends the repeated frames as a
fresh sibling subtree after them, in insertion order. -/
theorem c1_contiguous_merge :
    (∀ (stack : List Frame) (h s0 s1 s2 : Nat) (trees : List Node),
      insertStack stack s1 s2 h (insertStack stack s0 s1 h trees) =
        touchPath stack.length s2 (insertStack stack s0 s1 h trees)) ∧
    (∀ (f : Frame) (rest : List Frame) (s e h : Nat) (trees : List Node) (last : Node),
      trees.getLast? = some last → last.data.end_ns ≠ s →
      insertStack (f :: rest) s e h trees =
        trees ++ [(match Node.from_frame f s e (frameHashStep h f) with
          | .mk d _ => Node.mk d (insertStack rest s e (frameHashStep h f) []))]) := by
  constructor
  · intro stack
    induction stack with
    | nil => intro h s0 s1 s2 trees; rfl
    | cons f rest ih =>
      intro h s0 s1 s2 trees
      obtain ⟨P, CH0, D, heq, hfp, hend⟩ := insertStack_cons_shape f rest s0 s1 h trees
      rw [heq]
      conv_lhs => simp only [insertStack, List.getLast?_concat, Node.data, Node.children,
        List.dropLast_concat]
      rw [if_pos ⟨hfp, hend⟩]
      rw [ih (frameHashStep h f) s0 s1 s2 CH0]
      simp only [List.length_cons, touchPath, List.getLast?_concat, List.dropLast_concat,
        Node.data, Node.children]
  · intro f rest s e h trees last hlast hne
    simp only [insertStack, hlast]
    rw [if_neg (by intro hcond; exact hne hcond.2)]

/-- C1 witness: the merge pass and the non-contiguous append at concrete
inputs — a two-frame stack inserted at `(10, 20)` and re-inserted at
`(20, 30)` equals the `touchPath` pass; inserting after a node ending at
`15 ≠ 20` appends a sibling. -/
theorem c1_contiguous_merge_witness :
    (insertStack [{ function := some "a" }, { function := some "b" }] 20 30 FNV_OFFSET
        (insertStack [{ function := some "a" }, { function := some "b" }] 10 20 FNV_OFFSET []) =
      touchPath 2 30
        (insertStack [{ function := some "a" }, { function := some "b" }] 10 20 FNV_OFFSET [])) ∧
    (insertStack [{ function := some "a" }] 20 30 FNV_OFFSET
        [Node.mk { end_ns := 15, fingerprint := 77 } []] =
      [Node.mk { end_ns := 15, fingerprint := 77 } []] ++
        [(match Node.from_frame { function := some "a" } 20 30
            (frameHashStep FNV_OFFSET { function := some "a" }) with
          | .mk d _ => Node.mk d (insertStack [] 20 30
              (frameHashStep FNV_OFFSET { function := some "a" }) []))]) :=
  ⟨c1_contiguous_merge.1 [{ function := some "a" }, { function := some "b" }]
      FNV_OFFSET 10 20 30 [],
   c1_contiguous_merge.2 { function := some "a" } [] 20 30 FNV_OFFSET
      [Node.mk { end_ns := 15, fingerprint := 77 } []]
      (Node.mk { end_ns := 15, fingerprint := 77 } []) rfl (by decide)⟩

/-! ## C5 — out-of-range stack and frame ids -/

/-- A sample's stack id is in range of the stack table. -/
def sampleStackOk («stacks» : List (List Int)) (s : Sample) : Bool :=
  i32AsUsize s.stack_id < «stacks».length

/-- Every frame id of a sample's stack is in range of the frame table. -/
def sampleFramesOk (frames : List Frame) («stacks» : List (List Int)) (s : Sample) : Bool :=
  («stacks».getD (i32AsUsize s.stack_id) []).all fun fid => i32AsUsize fid < frames.length

/-- A default sample (used only as the out-of-range default of `getD`). -/
def dSample : Sample := { stack_id := 0, thread_id := "", timestamp := 0 }

/-- C5 counterexample input: the second (and per-thread last) sample refers
to stack id `5`, far beyond the one-entry stack table. -/
def c5chunk : SampleChunk := { profile := {
  frames := [{ function := some "f" }],
  «stacks» := [[0]],
  samples := [{ stack_id := 0, thread_id := "1", timestamp := mkRat 1 100 },
              { stack_id := 5, thread_id := "1", timestamp := mkRat 2 100 }] } }

/-- C5, counterexample: the input contains a sample whose stack index
exceeds the stack-table length, yet the build succeeds — the last sample of
a thread is a timestamp-only sentinel and is never validated, so "any
sample ... makes the whole build return InvalidStackId" fails. -/
theorem c5_counterexample :
    (c5chunk.profile.samples.any fun s =>
      c5chunk.profile.«stacks».length ≤ i32AsUsize s.stack_id) = true ∧
    (c5chunk.call_trees none).isOk = true := by
  exact ⟨by decide, by decide⟩

/-- The per-thread loop errors at the first processed sample that fails
validation: if samples `0..i` (with `i+1 < length`, so sample `i` is
processed, not the sentinel) are valid and sample `i` has an out-of-range
stack id the loop returns `InvalidStackId`; if its stack id is in range but
some frame id of its stack is out of range it returns `InvalidFrameId`. -/
theorem processThreadSamples_first_invalid (frames : List Frame)
    («stacks» : List (List Int)) :
    ∀ (i : Nat) (ss : List Sample) (trees : List Node), i + 1 < ss.length →
      (∀ j, j < i → sampleStackOk «stacks» (ss.getD j dSample) = true ∧
        sampleFramesOk frames «stacks» (ss.getD j dSample) = true) →
      ((sampleStackOk «stacks» (ss.getD i dSample) = false →
          processThreadSamples frames «stacks» ss trees = .error .InvalidStackId) ∧
       (sampleStackOk «stacks» (ss.getD i dSample) = true →
        sampleFramesOk frames «stacks» (ss.getD i dSample) = false →
          processThreadSamples frames «stacks» ss trees = .error .InvalidFrameId)) := by
  intro i
  induction i with
  | zero =>
    intro ss trees hlen _
    match ss, hlen with
    | s :: s2 :: rest, _ =>
      constructor
      · intro hbad
        rw [List.getD_cons_zero] at hbad
        have hcond : «stacks».length ≤ i32AsUsize s.stack_id := by
          simp only [sampleStackOk, decide_eq_false_iff_not, Nat.not_lt] at hbad
          exact hbad
        simp [processThreadSamples, hcond]
      · intro hok hbad
        rw [List.getD_cons_zero] at hok hbad
        have hcond : ¬ «stacks».length ≤ i32AsUsize s.stack_id := by
          simp only [sampleStackOk, decide_eq_true_eq] at hok
          omega
        have hex : ∃ x ∈ «stacks».getD (i32AsUsize s.stack_id) [],
            frames.length ≤ i32AsUsize x := by
          have hnot : ¬ (sampleFramesOk frames «stacks» s = true) := by simp [hbad]
          simp only [sampleFramesOk, List.all_eq_true, decide_eq_true_eq] at hnot
          push_neg at hnot
          obtain ⟨x, hx, hxf⟩ := hnot
          exact ⟨x, hx, by omega⟩
        simp only [processThreadSamples, hcond, if_false, ite_false]
        simp only [List.any_eq_true, decide_eq_true_eq]
        rw [if_pos hex]
  | succ i ih =>
    intro ss trees hlen hvalid
    match ss, hlen with
    | s :: s2 :: rest, hlen =>
      have h0 := hvalid 0 (Nat.succ_pos i)
      rw [List.getD_cons_zero] at h0
      have hcond : ¬ «stacks».length ≤ i32AsUsize s.stack_id := by
        have := h0.1
        simp only [sampleStackOk, decide_eq_true_eq] at this
        omega
      have hnex : ¬ ∃ x ∈ «stacks».getD (i32AsUsize s.stack_id) [],
          frames.length ≤ i32AsUsize x := by
        have := h0.2
        simp only [sampleFramesOk, List.all_eq_true, decide_eq_true_eq] at this
        push_neg
        intro x hx
        have := this x hx
        omega
      have hlen2 : i + 1 < (s2 :: rest).length := by
        simpa using hlen
      have hvalid2 : ∀ j, j < i → sampleStackOk «stacks» ((s2 :: rest).getD j dSample) = true ∧
          sampleFramesOk frames «stacks» ((s2 :: rest).getD j dSample) = true := by
        intro j hj
        have := hvalid (j + 1) (by omega)
        rwa [List.getD_cons_succ] at this
      constructor
      · intro hbad
        rw [List.getD_cons_succ] at hbad
        simp only [processThreadSamples, hcond, if_false, ite_false]
        simp only [List.any_eq_true, decide_eq_true_eq]
        rw [if_neg hnex]
        exact (ih (s2 :: rest) _ hlen2 hvalid2).1 hbad
      · intro hok hbad
        rw [List.getD_cons_succ] at hok hbad
        simp only [processThreadSamples, hcond, if_false, ite_false]
        simp only [List.any_eq_true, decide_eq_true_eq]
        rw [if_neg hnex]
        exact (ih (s2 :: rest) _ hlen2 hvalid2).2 hok hbad

/-- Membership is preserved by sorted insertion. -/
theorem mem_insertSampleSorted {s a : Sample} {l : List Sample} :
    a ∈ insertSampleSorted s l ↔ a = s ∨ a ∈ l := by
  induction l with
  | nil => simp [insertSampleSorted]
  | cons b rest ih =>
    unfold insertSampleSorted
    cases hb : b.timestamp.blt s.timestamp <;> (simp [hb, ih]; try tauto)

/-- Sorting the samples permutes them (membership view). -/
theorem mem_sortSamples {a : Sample} {l : List Sample} : a ∈ sortSamples l ↔ a ∈ l := by
  induction l with
  | nil => simp [sortSamples]
  | cons s rest ih => simp [sortSamples, mem_insertSampleSorted, ih]

/-- Once the accumulator holds the only thread id, the fold leaves it. -/
theorem threadIds_aux (tid : String) :
    ∀ l : List Sample, (∀ s ∈ l, s.thread_id = tid) →
      l.foldl (fun acc s => if acc.contains s.thread_id then acc else acc ++ [s.thread_id])
        [tid] = [tid] := by
  intro l
  induction l with
  | nil => intro _; rfl
  | cons s rest ih =>
    intro h
    have hs : s.thread_id = tid := h s (by simp)
    have hcontains : (([tid] : List String).contains s.thread_id) = true := by
      simp [hs]
    simp only [List.foldl_cons, hcontains, if_true]
    exact ih fun x hx => h x (by simp [hx])

/-- A nonempty sample list on a single thread has that thread id alone. -/
theorem threadIds_all_same (tid : String) (l : List Sample) (hne : l ≠ [])
    (h : ∀ s ∈ l, s.thread_id = tid) : threadIds l = [tid] := by
  match l, hne with
  | s :: rest, _ =>
    have hs : s.thread_id = tid := h s (by simp)
    unfold threadIds
    simp only [List.foldl_cons]
    have hempty : (([] : List String).contains s.thread_id) = false := rfl
    simp only [hempty, if_false, List.nil_append, hs, ite_false, Bool.false_eq_true]
    exact threadIds_aux tid rest fun x hx => h x (by simp [hx])

/-- C5 (amended): for a single-thread input, the *first processed* sample
that fails validation aborts the whole build (the per-thread last sample,
sorted by timestamp, is a timestamp-only sentinel and is exempt): an
out-of-range stack id yields `InvalidStackId`; an in-range stack id whose
stack holds an out-of-range frame id yields `InvalidFrameId`.  The error
aborts the call — no partial forest is returned and no index is clamped. -/
theorem c5_invalid_index_amended :
    ∀ (chunk : SampleChunk) (tid : String) (i : Nat),
      (∀ s ∈ chunk.profile.samples, s.thread_id = tid) →
      i + 1 < (sortSamples chunk.profile.samples).length →
      (∀ j, j < i →
        sampleStackOk chunk.profile.«stacks»
          ((sortSamples chunk.profile.samples).getD j dSample) = true ∧
        sampleFramesOk chunk.profile.frames chunk.profile.«stacks»
          ((sortSamples chunk.profile.samples).getD j dSample) = true) →
      ((sampleStackOk chunk.profile.«stacks»
          ((sortSamples chunk.profile.samples).getD i dSample) = false →
        chunk.call_trees none = .error .InvalidStackId) ∧
       (sampleStackOk chunk.profile.«stacks»
          ((sortSamples chunk.profile.samples).getD i dSample) = true →
        sampleFramesOk chunk.profile.frames chunk.profile.«stacks»
          ((sortSamples chunk.profile.samples).getD i dSample) = false →
        chunk.call_trees none = .error .InvalidFrameId)) := by
  intro chunk tid i hall hlen hvalid
  have hsortall : ∀ s ∈ sortSamples chunk.profile.samples, s.thread_id = tid :=
    fun s hs => hall s (mem_sortSamples.mp hs)
  have hne : sortSamples chunk.profile.samples ≠ [] := by
    intro h
    rw [h] at hlen
    simp at hlen
  have htids : threadIds (sortSamples chunk.profile.samples) = [tid] :=
    threadIds_all_same _ _ hne hsortall
  have hfilter : (sortSamples chunk.profile.samples).filter (fun s => s.thread_id = tid) =
      sortSamples chunk.profile.samples := by
    rw [List.filter_eq_self]
    intro a ha
    simpa using hsortall a ha
  have hmain := processThreadSamples_first_invalid chunk.profile.frames chunk.profile.«stacks»
    i (sortSamples chunk.profile.samples) [] hlen hvalid
  constructor
  · intro hbad
    have herr := hmain.1 hbad
    simp [SampleChunk.call_trees, htids, hfilter, herr, Bind.bind, Except.bind]
  · intro hok hbad
    have herr := hmain.2 hok hbad
    simp [SampleChunk.call_trees, htids, hfilter, herr, Bind.bind, Except.bind]

/-- C5 witness input: the first processed sample's stack id `0` is already
out of range of the empty stack table. -/
def c5wchunk : SampleChunk := { profile := {
  frames := [],
  «stacks» := [],
  samples := [{ stack_id := 0, thread_id := "1", timestamp := mkRat 1 100 },
              { stack_id := 0, thread_id := "1", timestamp := mkRat 2 100 }] } }

/-- C5 witness: the amended statement at a concrete single-thread chunk. -/
theorem c5_invalid_index_amended_witness :
    c5wchunk.call_trees none = .error .InvalidStackId :=
  (c5_invalid_index_amended c5wchunk "1" 0 (by decide) (by decide)
    (fun j hj => absurd hj (by omega))).1 (by decide)

/-! ## C7 — root scan order and the unknown-frames filter -/

/-- C7 window: any candidate with a nonempty function name, application
code, `start_ns ∈ [0, 50]`, `end_ns ≤ 100` and `duration_ns ≥ 10` is
valid. -/
def c7stats : FrozenFrameStats :=
  { duration_ns := 100, end_ns := 100, min_duration_ns := 10, start_limit_ns := 50,
    start_ns := 0 }

/-- A leaf that is a valid candidate under `c7stats`. -/
def mkLeaf (nm : String) : Node :=
  Node.mk { duration_ns := 85, end_ns := 90, start_ns := 0, is_application := true,
            name := nm, sample_count := 1, frame := { function := some nm } } []

/-- An anonymous (empty-function) wrapper node around one child. -/
def mkChainNode (child : Node) : Node :=
  Node.mk { is_application := true } [child]

/-- First root: a valid cause `f` under four anonymous ancestors, so its
captured five-frame stack trace is 80% empty-function frames. -/
def c7root1 : Node := mkChainNode (mkChainNode (mkChainNode (mkChainNode (mkLeaf "f"))))

/-- Second root: a directly valid cause `g` with a clean stack trace. -/
def c7root2 : Node := mkLeaf "g"

/-- C7, counterexample: the first root's depth-first search yields a
candidate, yet the scan does not end there — the candidate is discarded by
the 80% unknown-frames filter and the `continue` targets the *root* loop,
so the second root is examined and produces the occurrence.  This refutes
"once any root yields a candidate, no remaining root is examined for that
measurement value". -/
theorem c7_counterexample :
    (find_frame_drop_cause_frame c7stats c7root1 [] 0).isSome = true ∧
    ((frameDropScanRoots c7stats [c7root1, c7root2]).map fun info => info.node.data.name) =
      some "g" := by
  constructor
  · simp [find_frame_drop_cause_frame, findCauseChildren, c7root1, mkChainNode, mkLeaf,
      FrozenFrameStats.is_node_stack_valid, c7stats, Node.data, Node.children]
  · simp [frameDropScanRoots, find_frame_drop_cause_frame, findCauseChildren, c7root1,
      c7root2, mkChainNode, mkLeaf, FrozenFrameStats.is_node_stack_valid, c7stats,
      Node.data, Node.children, unknownFramesCount, Node.to_frame]

/-- A root contributes no occurrence: its search finds nothing, or its
candidate's stack trace is at least 80% empty-function frames. -/
def filterKills (stats : FrozenFrameStats) (root : Node) : Bool :=
  match find_frame_drop_cause_frame stats root [] 0 with
  | none => true
  | some cause => 5 * unknownFramesCount cause.st ≥ 4 * cause.st.length

/-- C7 (amended): for each measurement value, the roots are scanned in
order and the first root whose search yields a candidate *surviving* the
80% unknown-frames filter ends the scan and provides the occurrence; a
root whose candidate is filtered out does not stop the scan — the next
root is examined; and if every root's candidate is filtered (or absent)
the measurement yields no occurrence. -/
theorem c7_first_surviving_amended :
    (∀ (stats : FrozenFrameStats) (roots : List Node),
      frameDropScanRoots stats roots = roots.findSome? fun root =>
        match find_frame_drop_cause_frame stats root [] 0 with
        | none => none
        | some cause =>
          if 5 * unknownFramesCount cause.st ≥ 4 * (cause.st.map Node.to_frame).length then
            none
          else
            some { category := "frame_drop", node := cause.n,
                   stack_trace := cause.st.map Node.to_frame }) ∧
    (∀ (stats : FrozenFrameStats) (roots : List Node),
      (∀ root ∈ roots, filterKills stats root = true) →
      frameDropScanRoots stats roots = none) := by
  constructor
  · intro stats roots
    induction roots with
    | nil => rfl
    | cons root rest ih =>
      rw [List.findSome?_cons]
      cases h : find_frame_drop_cause_frame stats root [] 0 with
      | none =>
        unfold frameDropScanRoots
        rw [h]
        simpa using ih
      | some cause =>
        by_cases hf : 5 * unknownFramesCount cause.st ≥ 4 * (cause.st.map Node.to_frame).length
        · unfold frameDropScanRoots
          rw [h]
          simp only [hf, if_true, ite_true]
          simpa [hf] using ih
        · unfold frameDropScanRoots
          rw [h]
          have hf2 : ¬ 4 * cause.st.length ≤ 5 * unknownFramesCount cause.st := by
            simpa [List.length_map, ge_iff_le] using hf
          simp [hf2]
  · intro stats roots hkill
    induction roots with
    | nil => rfl
    | cons root rest ih =>
      have hk := hkill root (by simp)
      unfold filterKills at hk
      unfold frameDropScanRoots
      cases h : find_frame_drop_cause_frame stats root [] 0 with
      | none =>
        exact ih fun r hr => hkill r (by simp [hr])
      | some cause =>
        rw [h] at hk
        simp only [decide_eq_true_eq, ge_iff_le] at hk
        have hk2 : 4 * (cause.st.map Node.to_frame).length ≤ 5 * unknownFramesCount cause.st := by
          simpa [List.length_map] using hk
        simp only [List.length_map] at hk2
        simp [hk2]
        exact ih fun r hr => hkill r (by simp [hr])

/-- C7 witness: the first-surviving characterization at the two concrete
roots, and the all-filtered case at the concrete filtered root alone. -/
theorem c7_first_surviving_amended_witness :
    (frameDropScanRoots c7stats [c7root1, c7root2] =
      [c7root1, c7root2].findSome? fun root =>
        match find_frame_drop_cause_frame c7stats root [] 0 with
        | none => none
        | some cause =>
          if 5 * unknownFramesCount cause.st ≥ 4 * (cause.st.map Node.to_frame).length then
            none
          else
            some { category := "frame_drop", node := cause.n,
                   stack_trace := cause.st.map Node.to_frame }) ∧
    frameDropScanRoots c7stats [c7root1] = none := by
  constructor
  · exact c7_first_surviving_amended.1 c7stats [c7root1, c7root2]
  · refine c7_first_surviving_amended.2 c7stats [c7root1] ?_
    intro root hr
    simp only [List.mem_singleton] at hr
    subst hr
    simp [filterKills, find_frame_drop_cause_frame, findCauseChildren, c7root1, mkChainNode,
      mkLeaf, FrozenFrameStats.is_node_stack_valid, c7stats, Node.data, Node.children,
      unknownFramesCount]

/-! ## C8 — Node timing invariant -/

/-- C8, counterexample: the claim asserts `end_ns >= start_ns` holds for
*every* node produced by `from_frame`, but `Node::from_frame` performs no
check: created with `start = 5`, `end = 0` (the builder's "unset end"
convention combined with a nonzero start), the node has `end_ns = 0 <
5 = start_ns`, and its `duration_ns = 0` differs from the `u64` value of
`end_ns - start_ns`. -/
theorem c8_counterexample :
    (Node.from_frame {} 5 0 0).data.end_ns < (Node.from_frame {} 5 0 0).data.start_ns ∧
      (Node.from_frame {} 5 0 0).data.duration_ns ≠
        sub64 (Node.from_frame {} 5 0 0).data.end_ns (Node.from_frame {} 5 0 0).data.start_ns := by
  constructor
  · decide
  · decide

/-- C8 (amended): provided a node is created with `end ≥ start` and every
`update`/`set_duration` moves the end forward in time (`t ≥ start_ns`, with
the `u64` values in range), `duration_ns = end_ns - start_ns` and
`end_ns ≥ start_ns` hold after creation and after every mutation. -/
theorem c8_node_invariant_amended :
    (∀ (f : Frame) (start stop fp : Nat), start ≤ stop → stop < U64MOD →
      (Node.from_frame f start stop fp).data.duration_ns =
          (Node.from_frame f start stop fp).data.end_ns -
            (Node.from_frame f start stop fp).data.start_ns ∧
        (Node.from_frame f start stop fp).data.start_ns ≤
          (Node.from_frame f start stop fp).data.end_ns) ∧
    (∀ (d : NodeData) (t : Nat), d.start_ns ≤ t → t < U64MOD →
      (d.set_duration t).duration_ns = (d.set_duration t).end_ns - (d.set_duration t).start_ns ∧
        (d.set_duration t).start_ns ≤ (d.set_duration t).end_ns) ∧
    (∀ (d : NodeData) (t : Nat), d.start_ns ≤ t → t < U64MOD →
      (d.update t).duration_ns = (d.update t).end_ns - (d.update t).start_ns ∧
        (d.update t).start_ns ≤ (d.update t).end_ns) := by
  refine ⟨?_, ?_, ?_⟩
  · intro f start stop fp hle hlt
    unfold Node.from_frame
    by_cases hpos : stop > 0
    · simp only [hpos, if_true, Node.data]
      exact ⟨sub64_of_le stop start hle hlt, hle⟩
    · have hstop : stop = 0 := by omega
      have hstart : start = 0 := by omega
      subst hstop; subst hstart
      simp [Node.data]
  · intro d t hle hlt
    unfold NodeData.set_duration
    exact ⟨sub64_of_le t d.start_ns hle hlt, hle⟩
  · intro d t hle hlt
    unfold NodeData.update NodeData.set_duration
    exact ⟨sub64_of_le t d.start_ns hle hlt, hle⟩

/-- C8 witness: the amended invariant at concrete inputs. -/
theorem c8_node_invariant_amended_witness :
    ((Node.from_frame {} 3 7 0).data.duration_ns =
        (Node.from_frame {} 3 7 0).data.end_ns - (Node.from_frame {} 3 7 0).data.start_ns ∧
      (Node.from_frame {} 3 7 0).data.start_ns ≤ (Node.from_frame {} 3 7 0).data.end_ns) ∧
    (({ start_ns := 2 : NodeData }.set_duration 9).duration_ns =
        ({ start_ns := 2 : NodeData }.set_duration 9).end_ns -
          ({ start_ns := 2 : NodeData }.set_duration 9).start_ns ∧
      ({ start_ns := 2 : NodeData }.set_duration 9).start_ns ≤
        ({ start_ns := 2 : NodeData }.set_duration 9).end_ns) ∧
    (({ start_ns := 2 : NodeData }.update 9).duration_ns =
        ({ start_ns := 2 : NodeData }.update 9).end_ns -
          ({ start_ns := 2 : NodeData }.update 9).start_ns ∧
      ({ start_ns := 2 : NodeData }.update 9).start_ns ≤
        ({ start_ns := 2 : NodeData }.update 9).end_ns) :=
  ⟨c8_node_invariant_amended.1 {} 3 7 0 (by decide) (by decide),
   c8_node_invariant_amended.2.1 { start_ns := 2 } 9 (by decide) (by decide),
   c8_node_invariant_amended.2.2 { start_ns := 2 } 9 (by decide) (by decide)⟩

/-! ## C9 — declared in-app flags under `normalize` -/

/-- `set_status` only touches the `status` field. -/
theorem set_status_platform (f : Frame) : (f.set_status).platform = f.platform := by
  unfold Frame.set_status
  rcases hd : f.data with _ | d <;> simp only [hd]
  rcases hs : d.symbolicator_status with _ | s <;> simp only [hs]
  by_cases hse : s = "" <;> simp [hse]

/-- `set_status` only touches the `status` field. -/
theorem set_status_in_app (f : Frame) : (f.set_status).in_app = f.in_app := by
  unfold Frame.set_status
  rcases hd : f.data with _ | d <;> simp only [hd]
  rcases hs : d.symbolicator_status with _ | s <;> simp only [hs]
  by_cases hse : s = "" <;> simp [hse]

/-- C9: a frame that already declares `in_app` and whose own platform tag
equals the containing platform keeps the declared value through
`normalize`; a frame whose platform tag differs from the containing
platform has the declared value ignored and `in_app` re-computed from the
platform-specific rules (dispatched on the frame's own platform, after the
status update of `set_status`). -/
theorem c9_normalize_in_app :
    (∀ (f : Frame) (p : Platform) (b : Bool), f.in_app = some b → f.platform = some p →
      (f.normalize p).in_app = some b) ∧
    (∀ (f : Frame) (p q : Platform) (b : Bool), f.in_app = some b → f.platform = some q →
      q ≠ p → (f.normalize p).in_app = some (platformRuleApp (f.set_status) q)) := by
  constructor
  · intro f p b hin hplat
    unfold Frame.normalize Frame.set_in_app Frame.set_platform Frame.set_status
    cases hd : f.data with
    | none => simp [hd, hplat, hin]
    | some d =>
      cases hs : d.symbolicator_status with
      | none => simp [hd, hs, hplat, hin]
      | some s =>
        by_cases hse : s ≠ ""
        · simp [hd, hs, hse, hplat, hin]
        · simp [hd, hs, hse, hplat, hin]
  · intro f p q b hin hplat hne
    unfold Frame.normalize
    have hplat2 : (f.set_status).platform = some q := by rw [set_status_platform, hplat]
    have hsp : (f.set_status).set_platform p = f.set_status := by
      unfold Frame.set_platform
      rw [hplat2]
    rw [hsp]
    unfold Frame.set_in_app
    have hin2 : (f.set_status).in_app = some b := by rw [set_status_in_app, hin]
    simp [hplat2, hin2, hne.symm]

/-- C9 witness: both branches at concrete frames (a Cocoa-platform frame in
a Cocoa trace keeps its declared flag; a Cocoa-platform frame embedded in a
JavaScript trace is re-evaluated by the Cocoa rule). -/
theorem c9_normalize_in_app_witness :
    (({ in_app := some true, platform := some Platform.Cocoa : Frame }.normalize
        Platform.Cocoa).in_app = some true) ∧
    (({ in_app := some true, platform := some Platform.Cocoa : Frame }.normalize
        Platform.JavaScript).in_app =
      some (platformRuleApp
        ({ in_app := some true, platform := some Platform.Cocoa : Frame }.set_status)
        Platform.Cocoa)) :=
  ⟨c9_normalize_in_app.1 { in_app := some true, platform := some Platform.Cocoa }
      Platform.Cocoa true rfl rfl,
   c9_normalize_in_app.2 { in_app := some true, platform := some Platform.Cocoa }
      Platform.JavaScript Platform.Cocoa true rfl rfl (by decide)⟩

/-! ## C10 — unset `in_app` defaults to application in the tree -/

/-- C10: a node created from a frame with unset `in_app` gets
`is_application = true`; the frozen-frame validity check rejects every
non-application node (so the default is what lets unclassified frames
through it); and the classifier's own default for platforms without a rule
(`Android`, `Java`) is the opposite, system (`false`). -/
theorem c10_unset_in_app_default :
    (∀ (f : Frame) (start stop fp : Nat), f.in_app = none →
      (Node.from_frame f start stop fp).data.is_application = true) ∧
    (∀ (stats : FrozenFrameStats) (ns : NodeStack), ns.n.data.is_application = false →
      stats.is_node_stack_valid ns = false) ∧
    (∀ f : Frame, platformRuleApp f .Android = false ∧ platformRuleApp f .Java = false) := by
  refine ⟨?_, ?_, ?_⟩
  · intro f start stop fp hnone
    unfold Node.from_frame
    by_cases hpos : stop > 0 <;> simp [hpos, Node.data, hnone, Option.getD]
  · intro stats ns happ
    unfold FrozenFrameStats.is_node_stack_valid
    simp [happ]
  · intro f
    exact ⟨rfl, rfl⟩

/-! ## C6 — helper lemmas about wall times and the repair scan -/

/-- A wall-clock reading is always below `2^64` (it is reduced mod `2^64`). -/
theorem wallNs_lt {e : AndroidEvent} {c : Nat} (h : e.wallNs = some c) : c < U64MOD := by
  obtain ⟨ac, tid, mid, ⟨g, mono⟩⟩ := e
  rcases mono with _ | ⟨wall, cpu⟩
  · exact absurd h (by simp [AndroidEvent.wallNs])
  · rcases wall with _ | ⟨secs, nanos⟩
    · exact absurd h (by simp [AndroidEvent.wallNs])
    · rcases secs with _ | sv
      · exact absurd h (by simp [AndroidEvent.wallNs])
      · rcases nanos with _ | nv
        · exact absurd h (by simp [AndroidEvent.wallNs])
        · simp only [AndroidEvent.wallNs, Option.some.injEq] at h
          rw [← h]
          exact Nat.mod_lt _ (by decide)

/-- Writing back an adjusted time below `2^64` leaves an event whose wall
reading is exactly that time; the thread id is untouched. -/
theorem setWallNs_wallNs {e : AndroidEvent} {c : Nat} (h : e.wallNs = some c)
    (t : Nat) (ht : t < U64MOD) :
    (e.setWallNs t).wallNs = some t ∧ (e.setWallNs t).thread_id = e.thread_id := by
  obtain ⟨ac, tid, mid, ⟨g, mono⟩⟩ := e
  rcases mono with _ | ⟨wall, cpu⟩
  · exact absurd h (by simp [AndroidEvent.wallNs])
  · rcases wall with _ | ⟨secs, nanos⟩
    · exact absurd h (by simp [AndroidEvent.wallNs])
    · refine ⟨?_, rfl⟩
      simp only [AndroidEvent.setWallNs, AndroidEvent.wallNs, Option.some.injEq]
      rw [show t / 1000000000 * 1000000000 + t % 1000000000 = t from by omega]
      exact Nat.mod_eq_of_lt ht

/-- A `Chain` from a head value gives the chain of the list and dominance
of its head. -/
theorem chain_le_head {v : Nat} {l : List Nat} (h : List.Chain (· ≤ ·) v l) :
    List.Chain' (· ≤ ·) l ∧ ∀ y ∈ l.head?, v ≤ y := by
  cases l with
  | nil => exact ⟨trivial, by simp⟩
  | cons b rest =>
    rw [List.chain_cons] at h
    exact ⟨h.2, by simpa using h.1⟩

/-- Conversely, a chain whose head dominates `v` is a `Chain` from `v`. -/
theorem chain_of_chain' {v : Nat} {l : List Nat} (h : List.Chain' (· ≤ ·) l)
    (hd : ∀ y ∈ l.head?, v ≤ y) : List.Chain (· ≤ ·) v l := by
  cases l with
  | nil => exact List.Chain.nil
  | cons b rest =>
    rw [List.chain_cons]
    exact ⟨hd b (by simp), h⟩

/-- A thread with no event in the stream has no wall values. -/
theorem wallsOf_of_not_mem {tid : Nat} {evs : List AndroidEvent}
    (h : tid ∉ evs.map (fun e => e.thread_id)) : wallsOf tid evs = [] := by
  induction evs with
  | nil => rfl
  | cons e rest ih =>
    simp only [List.map_cons, List.mem_cons] at h
    push_neg at h
    unfold wallsOf
    rw [List.filterMap_cons]
    have : (if e.thread_id = tid then e.wallNs else none) = none := by
      rw [if_neg (fun hc => h.1 hc.symm)]
    rw [this]
    exact ih h.2

/-- `wallsOf` distributes over concatenation. -/
theorem wallsOf_append (tid : Nat) (l1 l2 : List AndroidEvent) :
    wallsOf tid (l1 ++ l2) = wallsOf tid l1 ++ wallsOf tid l2 := by
  unfold wallsOf
  exact List.filterMap_append _ _ _

/-- The range/ordering facts of one adjustment step: with the latest
tracker at most the max tracker and everything far from the `u64` wrap,
the adjusted time dominates the max tracker and the current value, and
grows by at most `2^51`. -/
theorem get_adjusted_time_facts (mx lt cur : Nat) (hle : lt ≤ mx)
    (hcur : cur < 2 ^ 50) (hmx : mx + 2 ^ 51 < U64MOD) :
    mx ≤ get_adjusted_time mx lt cur ∧ cur ≤ get_adjusted_time mx lt cur ∧
      get_adjusted_time mx lt cur ≤ mx + 2 ^ 51 := by
  unfold get_adjusted_time
  by_cases hc : cur < mx ∧ cur < lt
  · rw [if_pos hc]
    rw [Nat.mod_eq_of_lt (by omega)]
    omega
  · rw [if_neg hc]
    have hcl : lt ≤ cur := by
      rcases Nat.lt_or_ge cur mx with h1 | h1
      · rcases Nat.lt_or_ge cur lt with h2 | h2
        · exact absurd ⟨h1, h2⟩ hc
        · exact h2
      · omega
    rw [sub64_of_le cur lt hcl (by unfold U64MOD; omega)]
    rw [Nat.mod_eq_of_lt (by omega)]
    omega

/-- The updated key of a tracker map. -/
theorem tmUpd_self (m : Nat → Option Nat) (k v : Nat) : (tmUpd m k v) k = some v := by
  simp [tmUpd]

/-- Another key of an updated tracker map. -/
theorem tmUpd_other (m : Nat → Option Nat) {k s : Nat} (v : Nat) (h : ¬ s = k) :
    (tmUpd m k v) s = m s := by
  simp [tmUpd, h]

/-- Reading back the updated key of a tracker map. -/
theorem tmUpd_getD_self (m : Nat → Option Nat) (k v : Nat) : ((tmUpd m k v) k).getD 0 = v := by
  simp [tmUpd]

/-- Reading another key of an updated tracker map. -/
theorem tmUpd_getD_other (m : Nat → Option Nat) {k s : Nat} (v : Nat) (h : ¬ s = k) :
    ((tmUpd m k v) s).getD 0 = (m s).getD 0 := by
  simp [tmUpd, h]

/-- Phase 2 of the repair keeps every thread's emitted wall times a
non-decreasing chain, starting from any per-thread floor dominated by the
max tracker, as long as the raw values are small and the budget of `2^51`
per event keeps every computation below `2^64`. -/
theorem adjustEvents_chain :
    ∀ (evs : List AndroidEvent) (latest maxm : Nat → Option Nat) (lastv : Nat → Nat)
      (C : Nat),
      C + evs.length * 2 ^ 51 < U64MOD →
      (∀ e ∈ evs, e.wallNs.getD 0 < 2 ^ 50) →
      (∀ t, (latest t).getD 0 ≤ (maxm t).getD 0) →
      (∀ t, (maxm t).getD 0 ≤ C) →
      (∀ t, lastv t ≤ (maxm t).getD 0) →
      ∀ t, List.Chain (· ≤ ·) (lastv t) (wallsOf t (adjustEvents evs latest maxm)) := by
  intro evs
  induction evs with
  | nil =>
    intro latest maxm lastv C _ _ _ _ _ t
    exact List.Chain.nil
  | cons e rest ih =>
    intro latest maxm lastv C hbudget hev hlm hmC hlast t
    cases hwall : e.wallNs with
    | none =>
      have hstep : adjustEvents (e :: rest) latest maxm = e :: adjustEvents rest latest maxm := by
        simp only [adjustEvents, hwall]
      rw [hstep]
      unfold wallsOf
      rw [List.filterMap_cons]
      have hnone : (if e.thread_id = t then e.wallNs else none) = none := by
        rw [hwall]
        split <;> rfl
      rw [hnone]
      exact ih latest maxm lastv C (by simp only [List.length_cons] at hbudget; omega)
        (fun x hx => hev x (by simp [hx])) hlm hmC hlast t
    | some cur =>
      have hcur : cur < 2 ^ 50 := by
        have := hev e (by simp)
        rw [hwall] at this
        simpa using this
      set tid := e.thread_id with htid
      set mx0 := (maxm tid).getD 0 with hmx0
      set lt0 := (latest tid).getD 0 with hlt0
      set nt := get_adjusted_time mx0 lt0 cur with hnt
      have hfacts := get_adjusted_time_facts mx0 lt0 cur (hlm tid) hcur
        (by have := hmC tid; simp only [List.length_cons] at hbudget; omega)
      have hntU : nt < U64MOD := by
        have := hmC tid
        simp only [List.length_cons] at hbudget
        omega
      have hstep : adjustEvents (e :: rest) latest maxm =
          e.setWallNs nt :: adjustEvents rest (tmUpd latest tid cur)
            (tmUpd maxm tid (max ((maxm tid).getD 0) nt)) := by
        simp only [adjustEvents, hwall]
      rw [hstep]
      have hset := setWallNs_wallNs hwall nt hntU
      have hmaxR := Nat.le_max_right ((maxm tid).getD 0) nt
      have hmaxL := Nat.le_max_left ((maxm tid).getD 0) nt
      have hC2 : (C + 2 ^ 51) + rest.length * 2 ^ 51 < U64MOD := by
        simp only [List.length_cons] at hbudget
        omega
      have hlm2 : ∀ s, ((tmUpd latest tid cur) s).getD 0 ≤
          ((tmUpd maxm tid (max ((maxm tid).getD 0) nt)) s).getD 0 := by
        intro s
        by_cases hs : s = tid
        · rw [hs, tmUpd_getD_self, tmUpd_getD_self]
          have := hfacts.2.1
          omega
        · rw [tmUpd_getD_other _ _ hs, tmUpd_getD_other _ _ hs]
          exact hlm s
      have hmC2 : ∀ s, ((tmUpd maxm tid (max ((maxm tid).getD 0) nt)) s).getD 0 ≤
          C + 2 ^ 51 := by
        intro s
        by_cases hs : s = tid
        · rw [hs, tmUpd_getD_self]
          have h1 := hmC tid
          have h2 := hfacts.2.2
          exact Nat.max_le.mpr ⟨by omega, by omega⟩
        · rw [tmUpd_getD_other _ _ hs]
          have := hmC s
          omega
      have hlast2 : ∀ s, (fun s => if s = tid then nt else lastv s) s ≤
          ((tmUpd maxm tid (max ((maxm tid).getD 0) nt)) s).getD 0 := by
        intro s
        show (if s = tid then nt else lastv s) ≤ _
        by_cases hs : s = tid
        · rw [if_pos hs, hs, tmUpd_getD_self]
          exact hmaxR
        · rw [if_neg hs, tmUpd_getD_other _ _ hs]
          exact hlast s
      have hih := ih (tmUpd latest tid cur) (tmUpd maxm tid (max ((maxm tid).getD 0) nt))
        (fun s => if s = tid then nt else lastv s) (C + 2 ^ 51) hC2
        (fun x hx => hev x (by simp [hx])) hlm2 hmC2 hlast2
      by_cases hteq : tid = t
      · subst hteq
        unfold wallsOf
        rw [List.filterMap_cons]
        have hsome : (if (e.setWallNs nt).thread_id = tid then (e.setWallNs nt).wallNs
            else none) = some nt := by
          rw [hset.2]
          rw [if_pos htid.symm]
          exact hset.1
        rw [hsome, List.chain_cons]
        constructor
        · have h1 := hlast tid
          have h2 := hfacts.1
          omega
        · have := hih tid
          simp only [if_pos rfl] at this
          exact this
      · unfold wallsOf
        rw [List.filterMap_cons]
        have hnone : (if (e.setWallNs nt).thread_id = t then (e.setWallNs nt).wallNs
            else none) = none := by
          rw [hset.2]
          exact if_neg hteq
        rw [hnone]
        have := hih t
        have ht2 : ¬ t = tid := fun hh => hteq hh.symm
        simp only [if_neg ht2] at this
        exact this

/-- Scan step: an event without a wall time is skipped. -/
theorem scanRegression_cons_none {e : AndroidEvent} (rest : List AndroidEvent)
    (latest maxm : Nat → Option Nat) (i : Nat) (hwall : e.wallNs = none) :
    scanRegression (e :: rest) latest maxm i = scanRegression rest latest maxm (i + 1) := by
  simp only [scanRegression, hwall]

/-- Scan step: the first wall time behind its thread's latest stops the
scan at this index with the trackers as they stand. -/
theorem scanRegression_cons_stop {e : AndroidEvent} (rest : List AndroidEvent)
    (latest maxm : Nat → Option Nat) (i : Nat) {cur l : Nat}
    (hwall : e.wallNs = some cur) (hl : latest e.thread_id = some l) (hlt : cur < l) :
    scanRegression (e :: rest) latest maxm i = (some i, latest, maxm) := by
  simp only [scanRegression, hwall, hl]
  rw [if_pos hlt]

/-- Scan step: a non-regressing wall time folds into the trackers. -/
theorem scanRegression_cons_go {e : AndroidEvent} (rest : List AndroidEvent)
    (latest maxm : Nat → Option Nat) (i : Nat) {cur : Nat}
    (hwall : e.wallNs = some cur)
    (hok : ∀ l, latest e.thread_id = some l → ¬ cur < l) :
    scanRegression (e :: rest) latest maxm i =
      scanRegression rest (tmUpd latest e.thread_id cur)
        (tmUpd maxm e.thread_id (max ((maxm e.thread_id).getD 0) cur)) (i + 1) := by
  simp only [scanRegression, hwall]
  cases hl : latest e.thread_id with
  | none => rfl
  | some l => simp only [if_neg (hok l hl)]

/-- A scan that reports a regression at `r` decomposes the stream into a
cleanly scanned prefix of length `r − i` and the regressing remainder; the
returned trackers are those of the clean prefix. -/
theorem scanRegression_some_split :
    ∀ (evs : List AndroidEvent) (latest maxm : Nat → Option Nat) (i r : Nat)
      (latR maxR : Nat → Option Nat),
      scanRegression evs latest maxm i = (some r, latR, maxR) →
      ∃ pre e post, evs = pre ++ e :: post ∧ r = i + pre.length ∧
        scanRegression pre latest maxm i = (none, latR, maxR) := by
  intro evs
  induction evs with
  | nil =>
    intro latest maxm i r latR maxR h
    exact absurd h (by simp [scanRegression])
  | cons e rest ih =>
    intro latest maxm i r latR maxR h
    cases hwall : e.wallNs with
    | none =>
      rw [scanRegression_cons_none rest latest maxm i hwall] at h
      obtain ⟨pre, e2, post, heq, hr, hscan⟩ := ih _ _ _ _ _ _ h
      refine ⟨e :: pre, e2, post, by rw [heq]; rfl, by simp only [List.length_cons]; omega, ?_⟩
      rw [scanRegression_cons_none pre latest maxm i hwall]
      exact hscan
    | some cur =>
      cases hl : latest e.thread_id with
      | some l =>
        by_cases hlt : cur < l
        · rw [scanRegression_cons_stop rest latest maxm i hwall hl hlt] at h
          simp only [Prod.mk.injEq, Option.some.injEq] at h
          obtain ⟨hi, hlat, hmax⟩ := h
          refine ⟨[], e, rest, rfl, by simp [hi], ?_⟩
          rw [hlat, hmax]
          rfl
        · rw [scanRegression_cons_go rest latest maxm i hwall
            (fun l2 hl2 => by rw [hl] at hl2; injection hl2 with h2; rw [← h2]; exact hlt)] at h
          obtain ⟨pre, e2, post, heq, hr, hscan⟩ := ih _ _ _ _ _ _ h
          refine ⟨e :: pre, e2, post, by rw [heq]; rfl,
            by simp only [List.length_cons]; omega, ?_⟩
          rw [scanRegression_cons_go pre latest maxm i hwall
            (fun l2 hl2 => by rw [hl] at hl2; injection hl2 with h2; rw [← h2]; exact hlt)]
          exact hscan
      | none =>
        rw [scanRegression_cons_go rest latest maxm i hwall
          (fun l2 hl2 => by rw [hl] at hl2; cases hl2)] at h
        obtain ⟨pre, e2, post, heq, hr, hscan⟩ := ih _ _ _ _ _ _ h
        refine ⟨e :: pre, e2, post, by rw [heq]; rfl,
          by simp only [List.length_cons]; omega, ?_⟩
        rw [scanRegression_cons_go pre latest maxm i hwall
          (fun l2 hl2 => by rw [hl] at hl2; cases hl2)]
        exact hscan

/-- Through a cleanly scanned stream the trackers stay ordered
(`latest ≤ max`), bounded by the largest wall value seen, and the final
latest tracker of each thread is its last wall value in the stream (or the
incoming entry when the thread has none). -/
theorem scanRegression_none_facts :
    ∀ (evs : List AndroidEvent) (latest maxm : Nat → Option Nat) (i : Nat)
      (latF maxF : Nat → Option Nat),
      scanRegression evs latest maxm i = (none, latF, maxF) →
      (∀ e ∈ evs, e.wallNs.getD 0 < 2 ^ 50) →
      (∀ t, (latest t).getD 0 ≤ (maxm t).getD 0) →
      (∀ t, (maxm t).getD 0 ≤ 2 ^ 50) →
      ((∀ t, (latF t).getD 0 ≤ (maxF t).getD 0) ∧ (∀ t, (maxF t).getD 0 ≤ 2 ^ 50) ∧
       (∀ t, (wallsOf t evs = [] → latF t = latest t) ∧
         (∀ v, (wallsOf t evs).getLast? = some v → latF t = some v))) := by
  intro evs
  induction evs with
  | nil =>
    intro latest maxm i latF maxF h _ hlm hmB
    simp only [scanRegression, Prod.mk.injEq] at h
    obtain ⟨_, hlat, hmax⟩ := h
    subst hlat
    subst hmax
    exact ⟨hlm, hmB, fun t => ⟨fun _ => rfl, fun v hv => by simp [wallsOf] at hv⟩⟩
  | cons e rest ih =>
    intro latest maxm i latF maxF h hev hlm hmB
    cases hwall : e.wallNs with
    | none =>
      rw [scanRegression_cons_none rest latest maxm i hwall] at h
      have hres := ih _ _ _ _ _ h (fun x hx => hev x (by simp [hx])) hlm hmB
      refine ⟨hres.1, hres.2.1, fun t => ?_⟩
      have hw : wallsOf t (e :: rest) = wallsOf t rest := by
        unfold wallsOf
        rw [List.filterMap_cons]
        have : (if e.thread_id = t then e.wallNs else none) = none := by
          rw [hwall]
          split <;> rfl
        rw [this]
      rw [hw]
      exact (hres.2.2 t)
    | some cur =>
      have hok : ∀ l, latest e.thread_id = some l → ¬ cur < l := by
        intro l hl hlt
        rw [scanRegression_cons_stop rest latest maxm i hwall hl hlt] at h
        simp at h
      rw [scanRegression_cons_go rest latest maxm i hwall hok] at h
      have hcur : cur < 2 ^ 50 := by
        have := hev e (by simp)
        rw [hwall] at this
        simpa using this
      have hlm2 : ∀ t, ((tmUpd latest e.thread_id cur) t).getD 0 ≤
          ((tmUpd maxm e.thread_id (max ((maxm e.thread_id).getD 0) cur)) t).getD 0 := by
        intro t
        by_cases ht : t = e.thread_id
        · rw [ht, tmUpd_getD_self, tmUpd_getD_self]
          exact Nat.le_max_right _ _
        · rw [tmUpd_getD_other _ _ ht, tmUpd_getD_other _ _ ht]
          exact hlm t
      have hmB2 : ∀ t,
          ((tmUpd maxm e.thread_id (max ((maxm e.thread_id).getD 0) cur)) t).getD 0 ≤ 2 ^ 50 := by
        intro t
        by_cases ht : t = e.thread_id
        · rw [ht, tmUpd_getD_self]
          exact Nat.max_le.mpr ⟨hmB _, by omega⟩
        · rw [tmUpd_getD_other _ _ ht]
          exact hmB t
      have hres := ih _ _ _ _ _ h (fun x hx => hev x (by simp [hx])) hlm2 hmB2
      refine ⟨hres.1, hres.2.1, fun t => ?_⟩
      by_cases ht : e.thread_id = t
      · have hw : wallsOf t (e :: rest) = cur :: wallsOf t rest := by
          unfold wallsOf
          rw [List.filterMap_cons]
          rw [if_pos ht, hwall]
        rw [hw]
        constructor
        · intro hempty
          cases hempty
        · intro v hv
          rcases hrest : wallsOf t rest with _ | ⟨w, ws⟩
          · rw [hrest] at hv
            simp only [List.getLast?_singleton, Option.some.injEq] at hv
            have hlatF := (hres.2.2 t).1 hrest
            rw [hlatF, ← ht, tmUpd_self, hv]
          · have hlast2 : (wallsOf t rest).getLast? = some v := by
              rw [hrest] at hv
              rw [List.getLast?_cons_cons] at hv
              rw [hrest]
              exact hv
            exact (hres.2.2 t).2 v hlast2
      · have hw : wallsOf t (e :: rest) = wallsOf t rest := by
          unfold wallsOf
          rw [List.filterMap_cons, if_neg ht]
        rw [hw]
        constructor
        · intro hempty
          have := (hres.2.2 t).1 hempty
          rw [this]
          exact tmUpd_other latest cur (fun hh => ht hh.symm)
        · exact (hres.2.2 t).2

/-- A cleanly scanned stream is, per thread, a non-decreasing chain of
wall values continuing from the incoming latest tracker. -/
theorem scanRegression_none_chain :
    ∀ (evs : List AndroidEvent) (latest maxm : Nat → Option Nat) (i : Nat)
      (latF maxF : Nat → Option Nat),
      scanRegression evs latest maxm i = (none, latF, maxF) →
      ∀ t, (∀ v, latest t = some v → List.Chain (· ≤ ·) v (wallsOf t evs)) ∧
        (latest t = none → List.Chain' (· ≤ ·) (wallsOf t evs)) := by
  intro evs
  induction evs with
  | nil =>
    intro latest maxm i latF maxF _ t
    constructor
    · intro v _
      exact List.Chain.nil
    · intro _
      trivial
  | cons e rest ih =>
    intro latest maxm i latF maxF h t
    cases hwall : e.wallNs with
    | none =>
      rw [scanRegression_cons_none rest latest maxm i hwall] at h
      have hw : wallsOf t (e :: rest) = wallsOf t rest := by
        unfold wallsOf
        rw [List.filterMap_cons]
        have : (if e.thread_id = t then e.wallNs else none) = none := by
          rw [hwall]
          split <;> rfl
        rw [this]
      rw [hw]
      exact ih _ _ _ _ _ h t
    | some cur =>
      have hok : ∀ l, latest e.thread_id = some l → ¬ cur < l := by
        intro l hl hlt
        rw [scanRegression_cons_stop rest latest maxm i hwall hl hlt] at h
        simp at h
      rw [scanRegression_cons_go rest latest maxm i hwall hok] at h
      have hres := ih _ _ _ _ _ h
      by_cases ht : e.thread_id = t
      · have hw : wallsOf t (e :: rest) = cur :: wallsOf t rest := by
          unfold wallsOf
          rw [List.filterMap_cons, if_pos ht, hwall]
        rw [hw]
        have htail : List.Chain (· ≤ ·) cur (wallsOf t rest) := by
          have := (hres t).1 cur
          rw [← ht] at this ⊢
          exact this (tmUpd_self latest e.thread_id cur)
        constructor
        · intro v hv
          rw [List.chain_cons]
          have hvc : ¬ cur < v := hok v (by rw [ht]; exact hv)
          exact ⟨by omega, htail⟩
        · intro _
          exact htail
      · have hw : wallsOf t (e :: rest) = wallsOf t rest := by
          unfold wallsOf
          rw [List.filterMap_cons, if_neg ht]
        rw [hw]
        have hupd : (tmUpd latest e.thread_id cur) t = latest t :=
          tmUpd_other latest cur (fun hh => ht hh.symm)
        constructor
        · intro v hv
          exact (hres t).1 v (by rw [hupd]; exact hv)
        · intro hv
          exact (hres t).2 (by rw [hupd]; exact hv)

/-- A stream whose threads are all non-decreasing (relative to the incoming
latest trackers) scans cleanly: no regression index is reported. -/
theorem scanRegression_no_regression :
    ∀ (evs : List AndroidEvent) (latest maxm : Nat → Option Nat) (i : Nat),
      (∀ t, (∀ v, latest t = some v → List.Chain (· ≤ ·) v (wallsOf t evs)) ∧
        (latest t = none → List.Chain' (· ≤ ·) (wallsOf t evs))) →
      (scanRegression evs latest maxm i).1 = none := by
  intro evs
  induction evs with
  | nil =>
    intro latest maxm i _
    rfl
  | cons e rest ih =>
    intro latest maxm i hchain
    cases hwall : e.wallNs with
    | none =>
      rw [scanRegression_cons_none rest latest maxm i hwall]
      refine ih _ _ _ fun t => ?_
      have hw : wallsOf t (e :: rest) = wallsOf t rest := by
        unfold wallsOf
        rw [List.filterMap_cons]
        have : (if e.thread_id = t then e.wallNs else none) = none := by
          rw [hwall]
          split <;> rfl
        rw [this]
      constructor
      · intro v hv
        have := (hchain t).1 v hv
        rwa [hw] at this
      · intro hv
        have := (hchain t).2 hv
        rwa [hw] at this
    | some cur =>
      have hwtid : wallsOf e.thread_id (e :: rest) = cur :: wallsOf e.thread_id rest := by
        unfold wallsOf
        rw [List.filterMap_cons, if_pos rfl, hwall]
      have hok : ∀ l, latest e.thread_id = some l → ¬ cur < l := by
        intro l hl
        have := (hchain e.thread_id).1 l hl
        rw [hwtid, List.chain_cons] at this
        omega
      rw [scanRegression_cons_go rest latest maxm i hwall hok]
      refine ih _ _ _ fun t => ?_
      by_cases ht : t = e.thread_id
      · subst ht
        constructor
        · intro v hv
          rw [tmUpd_self] at hv
          injection hv with hv
          subst hv
          cases hl : latest e.thread_id with
          | none =>
            have := (hchain e.thread_id).2 hl
            rw [hwtid] at this
            exact this
          | some l =>
            have := (hchain e.thread_id).1 l hl
            rw [hwtid, List.chain_cons] at this
            exact this.2
        · intro hv
          rw [tmUpd_self] at hv
          cases hv
      · constructor
        · intro v hv
          rw [tmUpd_other latest cur ht] at hv
          have := (hchain t).1 v hv
          have hw : wallsOf t (e :: rest) = wallsOf t rest := by
            unfold wallsOf
            rw [List.filterMap_cons, if_neg (fun hh => ht hh.symm)]
          rwa [hw] at this
        · intro hv
          rw [tmUpd_other latest cur ht] at hv
          have := (hchain t).2 hv
          have hw : wallsOf t (e :: rest) = wallsOf t rest := by
            unfold wallsOf
            rw [List.filterMap_cons, if_neg (fun hh => ht hh.symm)]
          rwa [hw] at this

/-- A clean scan keeps the two trackers equal (as defaulted reads) when
they start equal: each accepted event writes the raw current value into
the latest tracker and raises the max tracker to exactly that value. -/
theorem scanRegression_none_eq :
    ∀ (evs : List AndroidEvent) (latest maxm : Nat → Option Nat) (i : Nat)
      (latF maxF : Nat → Option Nat),
      scanRegression evs latest maxm i = (none, latF, maxF) →
      (∀ t, (latest t).getD 0 = (maxm t).getD 0) →
      ∀ t, (latF t).getD 0 = (maxF t).getD 0 := by
  intro evs
  induction evs with
  | nil =>
    intro latest maxm i latF maxF h heq
    simp only [scanRegression, Prod.mk.injEq] at h
    obtain ⟨_, hlat, hmax⟩ := h
    subst hlat
    subst hmax
    exact heq
  | cons e rest ih =>
    intro latest maxm i latF maxF h heq
    cases hwall : e.wallNs with
    | none =>
      rw [scanRegression_cons_none rest latest maxm i hwall] at h
      exact ih _ _ _ _ _ h heq
    | some cur =>
      have hok : ∀ l, latest e.thread_id = some l → ¬ cur < l := by
        intro l hl hlt
        rw [scanRegression_cons_stop rest latest maxm i hwall hl hlt] at h
        simp at h
      rw [scanRegression_cons_go rest latest maxm i hwall hok] at h
      refine ih _ _ _ _ _ h fun t => ?_
      by_cases ht : t = e.thread_id
      · rw [ht, tmUpd_getD_self, tmUpd_getD_self]
        have hmx : (maxm e.thread_id).getD 0 ≤ cur := by
          cases hl : latest e.thread_id with
          | none =>
            have h0 := heq e.thread_id
            rw [hl] at h0
            simp only [Option.getD_none] at h0
            omega
          | some l =>
            have h0 := heq e.thread_id
            rw [hl] at h0
            simp only [Option.getD_some] at h0
            have h1 := hok l hl
            omega
        omega
      · rw [tmUpd_getD_other _ _ ht, tmUpd_getD_other _ _ ht]
        exact heq t

/-- The latest tracker after a clean scan holds each thread's last wall
value in the stream, or the incoming entry when the thread has none
(the bound-free sibling of `scanRegression_none_facts`). -/
theorem scanRegression_none_latest :
    ∀ (evs : List AndroidEvent) (latest maxm : Nat → Option Nat) (i : Nat)
      (latF maxF : Nat → Option Nat),
      scanRegression evs latest maxm i = (none, latF, maxF) →
      ∀ t, (wallsOf t evs = [] → latF t = latest t) ∧
        (∀ v, (wallsOf t evs).getLast? = some v → latF t = some v) := by
  intro evs
  induction evs with
  | nil =>
    intro latest maxm i latF maxF h t
    simp only [scanRegression, Prod.mk.injEq] at h
    obtain ⟨_, hlat, _⟩ := h
    subst hlat
    exact ⟨fun _ => rfl, fun v hv => by simp [wallsOf] at hv⟩
  | cons e rest ih =>
    intro latest maxm i latF maxF h t
    cases hwall : e.wallNs with
    | none =>
      rw [scanRegression_cons_none rest latest maxm i hwall] at h
      have hw : wallsOf t (e :: rest) = wallsOf t rest := by
        unfold wallsOf
        rw [List.filterMap_cons]
        have : (if e.thread_id = t then e.wallNs else none) = none := by
          rw [hwall]
          split <;> rfl
        rw [this]
      rw [hw]
      exact ih _ _ _ _ _ h t
    | some cur =>
      have hok : ∀ l, latest e.thread_id = some l → ¬ cur < l := by
        intro l hl hlt
        rw [scanRegression_cons_stop rest latest maxm i hwall hl hlt] at h
        simp at h
      rw [scanRegression_cons_go rest latest maxm i hwall hok] at h
      have hres := ih _ _ _ _ _ h
      by_cases ht : e.thread_id = t
      · have hw : wallsOf t (e :: rest) = cur :: wallsOf t rest := by
          unfold wallsOf
          rw [List.filterMap_cons, if_pos ht, hwall]
        rw [hw]
        constructor
        · intro hempty
          cases hempty
        · intro v hv
          rcases hrest : wallsOf t rest with _ | ⟨w, ws⟩
          · rw [hrest] at hv
            simp only [List.getLast?_singleton, Option.some.injEq] at hv
            have hlatF := (hres t).1 hrest
            rw [hlatF, ← ht, tmUpd_self, hv]
          · have hlast2 : (wallsOf t rest).getLast? = some v := by
              rw [hrest] at hv
              rw [List.getLast?_cons_cons] at hv
              rw [hrest]
              exact hv
            exact (hres t).2 v hlast2
      · have hw : wallsOf t (e :: rest) = wallsOf t rest := by
          unfold wallsOf
          rw [List.filterMap_cons, if_neg ht]
        rw [hw]
        constructor
        · intro hempty
          have := (hres t).1 hempty
          rw [this]
          exact tmUpd_other latest cur (fun hh => ht hh.symm)
        · exact (hres t).2

/-- `get_adjusted_time` always lands below the `u64` modulus. -/
theorem get_adjusted_time_ltU (a b c : Nat) : get_adjusted_time a b c < U64MOD := by
  unfold get_adjusted_time
  split <;> exact Nat.mod_lt _ (by unfold U64MOD; omega)

/-- The rewrite loop leaves a thread's wall values untouched when its two
trackers agree and its raw wall values continue the latest tracker as a
non-decreasing chain: each adjustment is `max + (current − latest)` with
`max = latest ≤ current`, i.e. exactly `current`. -/
theorem adjustEvents_preserves_thread :
    ∀ (evs : List AndroidEvent) (latest maxm : Nat → Option Nat) (t : Nat),
      (latest t).getD 0 = (maxm t).getD 0 →
      List.Chain (· ≤ ·) ((latest t).getD 0) (wallsOf t evs) →
      wallsOf t (adjustEvents evs latest maxm) = wallsOf t evs := by
  intro evs
  induction evs with
  | nil =>
    intro latest maxm t _ _
    rfl
  | cons e rest ih =>
    intro latest maxm t heq hchain
    cases hwall : e.wallNs with
    | none =>
      have hstep : adjustEvents (e :: rest) latest maxm =
          e :: adjustEvents rest latest maxm := by
        simp only [adjustEvents, hwall]
      have hw : ∀ l, wallsOf t (e :: l) = wallsOf t l := by
        intro l
        unfold wallsOf
        rw [List.filterMap_cons]
        have h0 : (if e.thread_id = t then e.wallNs else none) = none := by
          rw [hwall]
          split <;> rfl
        rw [h0]
      rw [hstep, hw (adjustEvents rest latest maxm), hw rest]
      rw [hw rest] at hchain
      exact ih latest maxm t heq hchain
    | some cur =>
      have hcurU : cur < U64MOD := wallNs_lt hwall
      set tid := e.thread_id with htid
      set mx0 := (maxm tid).getD 0 with hmx0
      set lt0 := (latest tid).getD 0 with hlt0
      set nt := get_adjusted_time mx0 lt0 cur with hntdef
      have hntU : nt < U64MOD := get_adjusted_time_ltU mx0 lt0 cur
      have hstep : adjustEvents (e :: rest) latest maxm =
          e.setWallNs nt :: adjustEvents rest (tmUpd latest tid cur)
            (tmUpd maxm tid (max mx0 nt)) := by
        simp only [adjustEvents, hwall]
      have hset := setWallNs_wallNs hwall nt hntU
      rw [hstep]
      by_cases ht : tid = t
      · have hwcons : wallsOf t (e :: rest) = cur :: wallsOf t rest := by
          unfold wallsOf
          rw [List.filterMap_cons, if_pos ht, hwall]
        rw [hwcons, List.chain_cons] at hchain
        have hle : lt0 ≤ cur := by
          rw [hlt0, ht]
          exact hchain.1
        have heq2 : mx0 = lt0 := by
          rw [hmx0, hlt0, ht]
          exact heq.symm
        have hnt : nt = cur := by
          rw [hntdef]
          unfold get_adjusted_time
          rw [heq2]
          rw [if_neg (by omega : ¬ (cur < lt0 ∧ cur < lt0))]
          rw [sub64_of_le cur lt0 hle hcurU]
          have h3 : lt0 + (cur - lt0) = cur := by omega
          rw [h3]
          exact Nat.mod_eq_of_lt hcurU
        have hwcons2 : wallsOf t (e.setWallNs nt ::
            adjustEvents rest (tmUpd latest tid cur) (tmUpd maxm tid (max mx0 nt))) =
            cur :: wallsOf t (adjustEvents rest (tmUpd latest tid cur)
              (tmUpd maxm tid (max mx0 nt))) := by
          unfold wallsOf
          rw [List.filterMap_cons]
          have h0 : (if (e.setWallNs nt).thread_id = t then (e.setWallNs nt).wallNs
              else none) = some cur := by
            rw [hset.2]
            rw [if_pos ht, hset.1, hnt]
          rw [h0]
        rw [hwcons2, hwcons]
        congr 1
        refine ih (tmUpd latest tid cur) (tmUpd maxm tid (max mx0 nt)) t ?_ ?_
        · have h1 : ((tmUpd latest tid cur) t).getD 0 = cur := by
            rw [← ht, tmUpd_getD_self]
          have h2 : ((tmUpd maxm tid (max mx0 nt)) t).getD 0 = max mx0 nt := by
            rw [← ht, tmUpd_getD_self]
          rw [h1, h2, hnt]
          omega
        · have h1 : ((tmUpd latest tid cur) t).getD 0 = cur := by
            rw [← ht, tmUpd_getD_self]
          rw [h1]
          exact hchain.2
      · have hw1 : wallsOf t (e :: rest) = wallsOf t rest := by
          unfold wallsOf
          rw [List.filterMap_cons, if_neg ht]
        have hw2 : wallsOf t (e.setWallNs nt ::
            adjustEvents rest (tmUpd latest tid cur) (tmUpd maxm tid (max mx0 nt))) =
            wallsOf t (adjustEvents rest (tmUpd latest tid cur)
              (tmUpd maxm tid (max mx0 nt))) := by
          unfold wallsOf
          rw [List.filterMap_cons]
          have h0 : (if (e.setWallNs nt).thread_id = t then (e.setWallNs nt).wallNs
              else none) = none := by
            rw [hset.2]
            exact if_neg ht
          rw [h0]
        rw [hw2, hw1]
        rw [hw1] at hchain
        have hother : ∀ (m : Nat → Option Nat) (v : Nat),
            ((tmUpd m tid v) t).getD 0 = (m t).getD 0 := by
          intro m v
          exact tmUpd_getD_other m v (fun hh => ht hh.symm)
        refine ih (tmUpd latest tid cur) (tmUpd maxm tid (max mx0 nt)) t ?_ ?_
        · rw [hother, hother]
          exact heq
        · rw [hother]
          exact hchain

/-- The repair is the identity on streams recorded against the `Global` or
`Cpu` clock. -/
theorem fix_skip_clock (a : Android)
    (h : a.clock = Clock.Global ∨ a.clock = Clock.Cpu) :
    Android.fix_samples_time a = a := by
  obtain ⟨clk, evs, st⟩ := a
  rcases h with h | h
  · have h2 : clk = Clock.Global := h
    subst h2
    rfl
  · have h2 : clk = Clock.Cpu := h
    subst h2
    rfl

/-- The repaired event list of a non-skipped clock, by scan outcome: a
clean scan returns the chunk unchanged; a regression at `ridx` keeps the
prefix and rewrites the remainder through the adjustment loop. -/
theorem fix_samples_time_events_eq (a : Android)
    (h1 : a.clock ≠ Clock.Global) (h2 : a.clock ≠ Clock.Cpu) :
    ((scanRegression a.events (fun _ => none) (fun _ => none) 0).1 = none →
        Android.fix_samples_time a = a) ∧
      ∀ ridx latest maxm,
        scanRegression a.events (fun _ => none) (fun _ => none) 0 =
            (some ridx, latest, maxm) →
        (Android.fix_samples_time a).events =
          a.events.take ridx ++ adjustEvents (a.events.drop ridx) latest maxm := by
  obtain ⟨clk, evs, st⟩ := a
  cases clk
  case Global => exact absurd rfl h1
  case Cpu => exact absurd rfl h2
  all_goals
  refine ⟨fun hnone => ?_, fun ridx latest maxm hscan => ?_⟩
  all_goals try
    (rcases hscan : scanRegression evs (fun _ => none) (fun _ => none) 0 with ⟨o, l, m⟩;
     rw [hscan] at hnone;
     have ho : o = none := hnone;
     subst ho;
     simp [Android.fix_samples_time, hscan])
  all_goals simp [Android.fix_samples_time, hscan]

/-- Part one of the amended C6: with a non-skipped clock, raw wall values
below `2^50` and at most `2^12` events (keeping every computation away
from the `u64` wrap), the repaired stream is per-thread non-decreasing. -/
theorem c6_monotone_aux (a : Android)
    (h1 : a.clock ≠ Clock.Global) (h2 : a.clock ≠ Clock.Cpu)
    (hev : ∀ e ∈ a.events, e.wallNs.getD 0 < 2 ^ 50)
    (hlen : a.events.length ≤ 2 ^ 12) (t : Nat) :
    List.Chain' (· ≤ ·) (wallsOf t (Android.fix_samples_time a).events) := by
  have hfix := fix_samples_time_events_eq a h1 h2
  rcases hscan : scanRegression a.events (fun _ => none) (fun _ => none) 0 with ⟨o, latF, maxF⟩
  cases o with
  | none =>
    rw [hfix.1 (by rw [hscan])]
    have hch := scanRegression_none_chain a.events (fun _ => none) (fun _ => none) 0
      latF maxF hscan t
    exact hch.2 rfl
  | some ridx =>
    rw [hfix.2 ridx latF maxF hscan]
    obtain ⟨pre, e, post, heqevs, hr, hclean⟩ :=
      scanRegression_some_split a.events (fun _ => none) (fun _ => none) 0 ridx latF maxF hscan
    have hridx : ridx = pre.length := by omega
    have htake : a.events.take ridx = pre := by
      rw [heqevs, hridx]
      exact List.take_left pre (e :: post)
    have hdrop : a.events.drop ridx = e :: post := by
      rw [heqevs, hridx]
      exact List.drop_left pre (e :: post)
    rw [htake, hdrop, wallsOf_append]
    have hpreev : ∀ x ∈ pre, x.wallNs.getD 0 < 2 ^ 50 := by
      intro x hx
      exact hev x (by rw [heqevs]; exact List.mem_append_left _ hx)
    have hfacts := scanRegression_none_facts pre (fun _ => none) (fun _ => none) 0 latF maxF
      hclean hpreev (fun s => by simp) (fun s => by simp)
    have hchainPre := scanRegression_none_chain pre (fun _ => none) (fun _ => none) 0
      latF maxF hclean t
    have hpostev : ∀ x ∈ e :: post, x.wallNs.getD 0 < 2 ^ 50 := by
      intro x hx
      exact hev x (by rw [heqevs]; exact List.mem_append_right _ hx)
    have hlen2 : (2 ^ 50 : Nat) + (e :: post).length * 2 ^ 51 < U64MOD := by
      have hL : (e :: post).length ≤ 2 ^ 12 := by
        have : (e :: post).length ≤ a.events.length := by
          rw [heqevs]
          simp
        omega
      unfold U64MOD
      omega
    have hchainPost := adjustEvents_chain (e :: post) latF maxF
      (fun s => (latF s).getD 0) (2 ^ 50) hlen2 hpostev hfacts.1 hfacts.2.1 hfacts.1
    rw [List.chain'_append]
    refine ⟨hchainPre.2 rfl, (chain_le_head (hchainPost t)).1, ?_⟩
    intro x hx y hy
    have hx2 : (wallsOf t pre).getLast? = some x := hx
    have hlatF : latF t = some x := (hfacts.2.2 t).2 x hx2
    have h5 : (latF t).getD 0 ≤ y := (chain_le_head (hchainPost t)).2 y hy
    rw [hlatF] at h5
    exact h5

/-- Part two of the amended C6: a thread whose raw wall values are already
non-decreasing passes through the repair with its wall values unchanged
(no numeric bound needed). -/
theorem c6_preserve_aux (a : Android) (t : Nat)
    (hchain : List.Chain' (· ≤ ·) (wallsOf t a.events)) :
    wallsOf t (Android.fix_samples_time a).events = wallsOf t a.events := by
  by_cases hskip : a.clock = Clock.Global ∨ a.clock = Clock.Cpu
  · rw [fix_skip_clock a hskip]
  · push_neg at hskip
    have hfix := fix_samples_time_events_eq a hskip.1 hskip.2
    rcases hscan : scanRegression a.events (fun _ => none) (fun _ => none) 0 with ⟨o, latF, maxF⟩
    cases o with
    | none =>
      rw [hfix.1 (by rw [hscan])]
    | some ridx =>
      rw [hfix.2 ridx latF maxF hscan]
      obtain ⟨pre, e, post, heqevs, hr, hclean⟩ :=
        scanRegression_some_split a.events (fun _ => none) (fun _ => none) 0 ridx latF maxF hscan
      have hridx : ridx = pre.length := by omega
      have htake : a.events.take ridx = pre := by
        rw [heqevs, hridx]
        exact List.take_left pre (e :: post)
      have hdrop : a.events.drop ridx = e :: post := by
        rw [heqevs, hridx]
        exact List.drop_left pre (e :: post)
      have hwhole : wallsOf t a.events = wallsOf t pre ++ wallsOf t (e :: post) := by
        rw [heqevs, wallsOf_append]
      rw [htake, hdrop, wallsOf_append, hwhole]
      rw [hwhole, List.chain'_append] at hchain
      congr 1
      have heqtr := scanRegression_none_eq pre (fun _ => none) (fun _ => none) 0 latF maxF
        hclean (fun s => rfl) t
      have hlat := scanRegression_none_latest pre (fun _ => none) (fun _ => none) 0 latF maxF
        hclean t
      refine adjustEvents_preserves_thread (e :: post) latF maxF t heqtr ?_
      rcases hpre : (wallsOf t pre).getLast? with _ | x
      · have hempty : wallsOf t pre = [] := List.getLast?_eq_none_iff.mp hpre
        have hlatF : latF t = none := hlat.1 hempty
        rw [hlatF]
        exact chain_of_chain' hchain.2.1 (fun y _ => Nat.zero_le y)
      · have hlatF : latF t = some x := hlat.2 x hpre
        rw [hlatF]
        refine chain_of_chain' hchain.2.1 (fun y hy => ?_)
        exact hchain.2.2 x (by rw [hpre]; rfl) y hy

/-- Part three of the amended C6: a stream in which every appearing
thread's wall values are non-decreasing carries no regression and is
returned completely unmodified. -/
theorem c6_noreg_aux (a : Android)
    (h : ∀ t ∈ a.events.map (fun e => e.thread_id),
      List.Chain' (· ≤ ·) (wallsOf t a.events)) :
    Android.fix_samples_time a = a := by
  by_cases hskip : a.clock = Clock.Global ∨ a.clock = Clock.Cpu
  · exact fix_skip_clock a hskip
  · push_neg at hskip
    have hfix := fix_samples_time_events_eq a hskip.1 hskip.2
    have hcond : ∀ t, (∀ v, (fun _ => (none : Option Nat)) t = some v →
        List.Chain (· ≤ ·) v (wallsOf t a.events)) ∧
        ((fun _ => (none : Option Nat)) t = none →
          List.Chain' (· ≤ ·) (wallsOf t a.events)) := by
      intro t
      refine ⟨fun v hv => by simp at hv, fun _ => ?_⟩
      by_cases hmem : t ∈ a.events.map (fun e => e.thread_id)
      · exact h t hmem
      · rw [wallsOf_of_not_mem hmem]
        trivial
    exact hfix.1 (scanRegression_no_regression a.events (fun _ => none) (fun _ => none) 0 hcond)

/-! ## C2 — the regression-repair rewrite and its trackers -/

/-- An event carrying a wall-clock time of `s` seconds, `n` nanoseconds. -/
def mkWallEvent (tid s n : Nat) : AndroidEvent :=
  { thread_id := tid,
    time := { monotonic := some { wall := some { secs := some s, nanos := some n } } } }

/-- The adjustment loop as the claim words it: after each event, *both* the
per-thread max tracker and the per-thread latest tracker are updated with
the adjusted value (kept for comparison against the code, which stores the
raw value in the latest tracker). -/
def adjustEventsClaim :
    List AndroidEvent → (Nat → Option Nat) → (Nat → Option Nat) → List AndroidEvent
  | [], _, _ => []
  | e :: rest, latest, maxm =>
    match e.wallNs with
    | none => e :: adjustEventsClaim rest latest maxm
    | some current =>
      let tid := e.thread_id
      let new_time := get_adjusted_time ((maxm tid).getD 0) ((latest tid).getD 0) current
      e.setWallNs new_time ::
        adjustEventsClaim rest (tmUpd latest tid new_time)
          (tmUpd maxm tid (max ((maxm tid).getD 0) new_time))

/-- The whole repair pass under the claim's tracker rule. -/
def fixSamplesTimeClaim (a : Android) : Android :=
  match a.clock with
  | .Global | .Cpu => a
  | _ =>
    match scanRegression a.events (fun _ => none) (fun _ => none) 0 with
    | (none, _, _) => a
    | (some ridx, latest, maxm) =>
      { a with events := a.events.take ridx ++
          adjustEventsClaim (a.events.drop ridx) latest maxm }

/-- C2 counterexample input: thread 1 at 10s, then 5s (regression), then 5s
again. -/
def c2ex : Android :=
  { clock := .Dual, events := [mkWallEvent 1 10 0, mkWallEvent 1 5 0, mkWallEvent 1 5 0] }

/-- C2, counterexample: the code stores the *raw* current value in the
latest tracker (and the max of the old max and the adjusted value in the
max tracker), not the adjusted value as the claim states: on the repeated
`5s` event the code takes the `current_raw >= latest_raw` branch and emits
`11s` again, while the claim's tracker rule would take the penalty branch
and emit `12s`. -/
theorem c2_counterexample :
    Android.fix_samples_time c2ex ≠ fixSamplesTimeClaim c2ex ∧
    wallsOf 1 ((Android.fix_samples_time c2ex).events) =
      [10000000000, 11000000000, 11000000000] ∧
    wallsOf 1 ((fixSamplesTimeClaim c2ex).events) =
      [10000000000, 11000000000, 12000000000] := by
  refine ⟨by decide, by decide, by decide⟩

/-- C2 (amended): from the regression point on, every event with a wall
time is rewritten to `get_adjusted_time(max, latest, current)` — which,
whenever the trackers are in range and `latest ≤ max` (an invariant of the
pass), equals `max + (current − latest)` when `current ≥ max` or
`current ≥ latest` and `max + 1s` otherwise — and *before the next event is
processed* the max tracker is raised to the adjusted value while the latest
tracker is updated with the **raw** current value, not the adjusted one. -/
theorem c2_adjustment_amended :
    (∀ (e : AndroidEvent) (rest : List AndroidEvent) (latest maxm : Nat → Option Nat)
        (current : Nat), e.wallNs = some current →
      adjustEvents (e :: rest) latest maxm =
        e.setWallNs (get_adjusted_time ((maxm e.thread_id).getD 0)
            ((latest e.thread_id).getD 0) current) ::
          adjustEvents rest (tmUpd latest e.thread_id current)
            (tmUpd maxm e.thread_id (max ((maxm e.thread_id).getD 0)
              (get_adjusted_time ((maxm e.thread_id).getD 0)
                ((latest e.thread_id).getD 0) current)))) ∧
    (∀ mx lt cur : Nat, lt ≤ mx → mx + 1000000000 + cur < U64MOD →
      get_adjusted_time mx lt cur =
        if cur < mx ∧ cur < lt then mx + 1000000000 else mx + (cur - lt)) := by
  constructor
  · intro e rest latest maxm current hwall
    simp only [adjustEvents, hwall]
  · intro mx lt cur hle hrange
    unfold get_adjusted_time
    by_cases hc : cur < mx ∧ cur < lt
    · rw [if_pos hc, if_pos hc]
      exact Nat.mod_eq_of_lt (by omega)
    · rw [if_neg hc, if_neg hc]
      have hcurlt : lt ≤ cur := by
        rcases Nat.lt_or_ge cur mx with h1 | h1
        · rcases Nat.lt_or_ge cur lt with h2 | h2
          · exact absurd ⟨h1, h2⟩ hc
          · exact h2
        · omega
      rw [sub64_of_le cur lt hcurlt (by omega)]
      exact Nat.mod_eq_of_lt (by omega)

/-- C2 witness: the step equation at a concrete event and the adjusted-time
formula at concrete tracker values. -/
theorem c2_adjustment_amended_witness :
    (adjustEvents [mkWallEvent 1 5 0] (fun _ => none) (fun _ => none) =
      (mkWallEvent 1 5 0).setWallNs (get_adjusted_time
          (((fun _ => none : Nat → Option Nat) 1).getD 0)
          (((fun _ => none : Nat → Option Nat) 1).getD 0) 5000000000) ::
        adjustEvents [] (tmUpd (fun _ => none) 1 5000000000)
          (tmUpd (fun _ => none) 1 (max (((fun _ => none : Nat → Option Nat) 1).getD 0)
            (get_adjusted_time (((fun _ => none : Nat → Option Nat) 1).getD 0)
              (((fun _ => none : Nat → Option Nat) 1).getD 0) 5000000000)))) ∧
    get_adjusted_time 20 15 10 = (if 10 < 20 ∧ 10 < 15 then 20 + 1000000000
      else 20 + (10 - 15)) :=
  ⟨c2_adjustment_amended.1 (mkWallEvent 1 5 0) [] (fun _ => none) (fun _ => none)
      5000000000 rfl,
   c2_adjustment_amended.2 20 15 10 (by decide) (by decide)⟩

/-- C6 counterexample input: thread 1 regresses (10s, then 5s), and after
the regression point thread 2 appears with a wall time of `2^64 − 1` ns
followed by `0` ns, driving the `u64` penalty addition around the wrap. -/
def c6ex : Android :=
  { clock := .Wall,
    events := [mkWallEvent 1 10 0, mkWallEvent 1 5 0,
               mkWallEvent 2 18446744073 709551615, mkWallEvent 2 0 0] }

/-- C6, counterexample: the repaired stream is *not* per-thread
non-decreasing in general — the adjustment arithmetic is `u64` and wraps:
after the regression, thread 2's wall time `2^64 − 1` passes through
unchanged, and its next event's penalty adjustment `max + 1s` wraps to
`999999999 < 2^64 − 1`. -/
theorem c6_counterexample :
    wallsOf 2 (Android.fix_samples_time c6ex).events =
      [18446744073709551615, 999999999] ∧
    ¬ List.Chain' (· ≤ ·) (wallsOf 2 (Android.fix_samples_time c6ex).events) := by
  have hw : wallsOf 2 (Android.fix_samples_time c6ex).events =
      [18446744073709551615, 999999999] := by decide
  refine ⟨hw, ?_⟩
  rw [hw]
  intro h
  have h2 : (18446744073709551615 : Nat) ≤ 999999999 := (List.chain_cons.mp h).1
  omega

/-- **C6 (amended).** `Android::fix_samples_time`, for a clock it does not
skip (`Global`/`Cpu` streams are returned untouched): (1) when every raw
wall value is below `2^50` and the stream has at most `2^12` events —
bounds that keep every `u64` computation away from the wrap — the repaired
stream's wall times never decrease from one event to the next on the same
thread; (2) a thread whose raw wall values are already non-decreasing
keeps exactly its pre-repair wall values, with no numeric bound needed;
and (3) a stream in which every appearing thread's wall values are
non-decreasing contains no regression and is returned completely
unmodified. -/
theorem c6_repair_amended (a : Android) :
    ((a.clock ≠ Clock.Global ∧ a.clock ≠ Clock.Cpu) →
      (∀ e ∈ a.events, e.wallNs.getD 0 < 2 ^ 50) →
      a.events.length ≤ 2 ^ 12 →
      ∀ t, List.Chain' (· ≤ ·) (wallsOf t (Android.fix_samples_time a).events)) ∧
    (∀ t, List.Chain' (· ≤ ·) (wallsOf t a.events) →
      wallsOf t (Android.fix_samples_time a).events = wallsOf t a.events) ∧
    ((∀ t ∈ a.events.map (fun e => e.thread_id),
        List.Chain' (· ≤ ·) (wallsOf t a.events)) →
      Android.fix_samples_time a = a) :=
  ⟨fun hc hev hlen t => c6_monotone_aux a hc.1 hc.2 hev hlen t,
   fun t hch => c6_preserve_aux a t hch,
   fun h => c6_noreg_aux a h⟩

/-- C6 witness input with a regression: thread 1 goes 10s then 5s; thread 2
(3s then 7s) is already monotone and must pass through unchanged. -/
def c6wex : Android :=
  { clock := .Wall,
    events := [mkWallEvent 1 10 0, mkWallEvent 2 3 0,
               mkWallEvent 1 5 0, mkWallEvent 2 7 0] }

/-- C6 witness input without any regression. -/
def c6wex2 : Android :=
  { clock := .Wall, events := [mkWallEvent 1 3 0, mkWallEvent 1 9 0] }

/-- C6 witness: all three parts of the amended claim at concrete inputs —
the bounded input `c6wex` is repaired to a per-thread monotone stream, its
unaffected thread 2 keeps its wall values, and the regression-free
`c6wex2` comes back unmodified. -/
theorem c6_repair_amended_witness :
    ((c6wex.clock ≠ Clock.Global ∧ c6wex.clock ≠ Clock.Cpu) ∧
      (∀ e ∈ c6wex.events, e.wallNs.getD 0 < 2 ^ 50) ∧
      c6wex.events.length ≤ 2 ^ 12 ∧
      List.Chain' (· ≤ ·) (wallsOf 1 (Android.fix_samples_time c6wex).events)) ∧
    (List.Chain' (· ≤ ·) (wallsOf 2 c6wex.events) ∧
      wallsOf 2 (Android.fix_samples_time c6wex).events = wallsOf 2 c6wex.events) ∧
    ((∀ t ∈ c6wex2.events.map (fun e => e.thread_id),
        List.Chain' (· ≤ ·) (wallsOf t c6wex2.events)) ∧
      Android.fix_samples_time c6wex2 = c6wex2) := by
  have hch2 : List.Chain' (· ≤ ·) (wallsOf 2 c6wex.events) := by
    have h : wallsOf 2 c6wex.events = [3000000000, 7000000000] := by decide
    rw [h]
    exact List.Chain.cons (by norm_num) List.Chain.nil
  have hch3 : ∀ t ∈ c6wex2.events.map (fun e => e.thread_id),
      List.Chain' (· ≤ ·) (wallsOf t c6wex2.events) := by
    intro t ht
    have hm : c6wex2.events.map (fun e => e.thread_id) = [1, 1] := by decide
    rw [hm] at ht
    simp only [List.mem_cons, List.not_mem_nil, or_false, or_self] at ht
    subst ht
    have h : wallsOf 1 c6wex2.events = [3000000000, 9000000000] := by decide
    rw [h]
    exact List.Chain.cons (by norm_num) List.Chain.nil
  exact ⟨⟨⟨by decide, by decide⟩, by decide, by decide,
      (c6_repair_amended c6wex).1 ⟨by decide, by decide⟩ (by decide) (by decide) 1⟩,
    ⟨hch2, (c6_repair_amended c6wex).2.1 2 hch2⟩,
    ⟨hch3, (c6_repair_amended c6wex2).2.2 hch3⟩⟩

/-! ## C3 — what the fingerprint depends on -/

/-- The forest a build result assigns to a thread id (empty when the thread
is absent or the build failed). -/
def forestOf (r : Except SampleError (List (String × List Node))) (tid : String) : List Node :=
  match r with
  | .ok l =>
    match l.find? (fun p => p.1 = tid) with
    | some p => p.2
    | none => []
  | .error _ => []

/-- C3 counterexample input: the frame `f` sampled as a lone root. -/
def c3chunkA : SampleChunk := { profile := {
  frames := [{ function := some "f" }],
  «stacks» := [[0]],
  samples := [{ stack_id := 0, thread_id := "1", timestamp := mkRat 1 100 },
              { stack_id := 0, thread_id := "1", timestamp := mkRat 2 100 }] } }

/-- C3 counterexample input: the same frame `f` sampled below a root `g`
(stacks are leaf-first: `[1, 0]` is leaf `f`, root `g`). -/
def c3chunkB : SampleChunk := { profile := {
  frames := [{ function := some "g" }, { function := some "f" }],
  «stacks» := [[1, 0]],
  samples := [{ stack_id := 0, thread_id := "1", timestamp := mkRat 1 100 },
              { stack_id := 0, thread_id := "1", timestamp := mkRat 2 100 }] } }

/-- C3, counterexample: the hasher accumulates along the stack walk and is
only reset per sample, so the fingerprint depends on the whole root-to-node
path, not on the frame alone: the same frame `f` (same name, same empty
trimmed package) receives different fingerprints as a root and as a child
of `g`, refuting "the same fingerprint regardless of where they occur in a
stack or sample". -/
theorem c3_counterexample :
    ((forestOf (c3chunkA.call_trees none) "1").map fun n => n.data.name) = ["f"] ∧
    (((forestOf (c3chunkB.call_trees none) "1").flatMap Node.children).map
      fun n => n.data.name) = ["f"] ∧
    ((forestOf (c3chunkA.call_trees none) "1").map fun n => n.data.package) =
      (((forestOf (c3chunkB.call_trees none) "1").flatMap Node.children).map
        fun n => n.data.package) ∧
    ((forestOf (c3chunkA.call_trees none) "1").map fun n => n.data.fingerprint) ≠
      (((forestOf (c3chunkB.call_trees none) "1").flatMap Node.children).map
        fun n => n.data.fingerprint) := by
  refine ⟨by decide, by decide, by decide, by decide⟩

/-- C3 (amended): the fingerprint a node receives is a pure function of the
hasher state accumulated over the root-to-node path together with the
frame's (module-or-trimmed-package, function name) pair: at equal hasher
states, frames agreeing on that pair hash equally; and a frame with empty
trimmed package and empty name receives, at the root position, the one
fixed sentinel fingerprint (that of the empty frame). -/
theorem c3_fingerprint_amended :
    (∀ (h : Nat) (f g : Frame), f.module_or_package = g.module_or_package →
      f.function.getD "" = g.function.getD "" → frameHashStep h f = frameHashStep h g) ∧
    (∀ f : Frame, f.module_or_package = "" → f.function.getD "" = "" →
      frameHashStep FNV_OFFSET f = frameHashStep FNV_OFFSET {}) := by
  constructor
  · intro h f g hpkg hfn
    simp only [frameHashStep, frameHashBytes]
    rw [hpkg, hfn]
  · intro f hpkg hfn
    simp only [frameHashStep, frameHashBytes]
    rw [hpkg, hfn]
    rfl

/-- C3 witness: the amended purity at concrete frames (a frame with module
`m` and a frame whose package trims to `m` hash equally at any reached
state; a fully empty frame receives the sentinel fingerprint). -/
theorem c3_fingerprint_amended_witness :
    frameHashStep 99 { function := some "x", module := some "m" } =
        frameHashStep 99 { function := some "x", package := some "/a/m" } ∧
      frameHashStep FNV_OFFSET { package := some "" } = frameHashStep FNV_OFFSET {} :=
  ⟨c3_fingerprint_amended.1 99 { function := some "x", module := some "m" }
      { function := some "x", package := some "/a/m" } (by decide) (by decide),
   c3_fingerprint_amended.2 { package := some "" } (by decide) (by decide)⟩

/-! ## C4 — the end-to-end sample scenario -/

/-- The C4 scenario: stack table `[[0], [1,0], [2,1,0]]` (leaf-first),
frames `function0..function2`, samples at `0.010`, `0.040`, `0.050` seconds
on thread `"1"`.  The claim does not fix the samples' stack ids; they are
the ones consistent with the claimed output (the samples resolve to the
stacks `[1,0]`, `[2,1,0]`, `[2,1,0]`), mirroring the repository fixture. -/
def c4chunk : SampleChunk := { profile := {
  frames := [{ function := some "function0" }, { function := some "function1" },
             { function := some "function2" }],
  «stacks» := [[0], [1, 0], [2, 1, 0]],
  samples := [{ stack_id := 1, thread_id := "1", timestamp := mkRat 1 100 },
              { stack_id := 2, thread_id := "1", timestamp := mkRat 4 100 },
              { stack_id := 2, thread_id := "1", timestamp := mkRat 5 100 }] } }

/-- C4: the build yields exactly one root `function0` spanning
`[10ms, 50ms)` with `sample_count = 2`, whose single child `function1`
spans `[10ms, 50ms)` with `sample_count = 2`, whose single child
`function2` spans `[40ms, 50ms)` with `sample_count = 1` (fingerprints are
the FNV-1a values the repository's own test asserts). -/
theorem c4_end_to_end :
    c4chunk.call_trees none = .ok [("1",
      [Node.mk
        { duration_ns := 40000000, end_ns := 50000000, fingerprint := 6903369137866438128,
          is_application := true, name := "function0", sample_count := 2, start_ns := 10000000,
          frame := { function := some "function0" } }
        [Node.mk
          { duration_ns := 40000000, end_ns := 50000000, fingerprint := 17095743776245828002,
            is_application := true, name := "function1", sample_count := 2, start_ns := 10000000,
            frame := { function := some "function1" } }
          [Node.mk
            { duration_ns := 10000000, end_ns := 50000000, fingerprint := 16529420490907277225,
              is_application := true, name := "function2", sample_count := 1,
              start_ns := 40000000, frame := { function := some "function2" } }
            []]]])] := by
  rfl

/-- C10 witness: the default at a concrete frame and the validity check at a
concrete non-application node stack. -/
theorem c10_unset_in_app_default_witness :
    ((Node.from_frame { function := some "f" } 0 10 0).data.is_application = true) ∧
    (({ end_ns := 100 : FrozenFrameStats }.is_node_stack_valid
        { depth := 0, n := Node.mk { is_application := false } [], st := [] }) = false) ∧
    (platformRuleApp { function := some "f" } .Android = false ∧
      platformRuleApp { function := some "f" } .Java = false) :=
  ⟨c10_unset_in_app_default.1 { function := some "f" } 0 10 0 rfl,
   c10_unset_in_app_default.2.1 { end_ns := 100 }
      { depth := 0, n := Node.mk { is_application := false } [], st := [] } rfl,
   c10_unset_in_app_default.2.2 { function := some "f" }⟩

end Vroomrs
